import Mathlib

/-!
# go-mal-pkgs: go.sum parsing, archive retrieval and safe extraction

A shallow embedding of `pkg/sumdb/sumdb.go`, `pkg/module/module.go` and the
record loop of `main.go`.  Go strings are lists of characters, Go `error`
values are a small inductive type, and every call that leaves the program
(the file system, the network, the archive reader, the tree hasher) is an
input of the model: the model returns the calls it makes together with the
value the Go function returns.
-/

/-- Go strings, as the sequence of their characters. -/
abbrev Str := List Char

/-- Go `error` values. `lib` is an error handed back by a library or by the
operating system, `errorf` is `fmt.Errorf` with a plain message and `wrap msg
cause` is `fmt.Errorf(msg + ": %w", cause)`. -/
inductive GoError where
  | lib (msg : Str)
  | errorf (msg : Str)
  | wrap (msg : Str) (cause : GoError)
deriving DecidableEq, Repr

namespace GoError

/-- The text of `err.Error()`. -/
def Error : GoError → Str
  | lib msg => msg
  | errorf msg => msg
  | wrap msg cause => msg ++ ": ".toList ++ cause.Error

end GoError

namespace unicode

/-- Go `unicode.IsSpace`: the Latin-1 cases of its switch, and above Latin-1
the ranges of the `White_Space` table. -/
def IsSpace (r : Char) : Bool :=
  let n := r.toNat
  if n ≤ 0xFF then
    n == 0x09 || n == 0x0A || n == 0x0B || n == 0x0C || n == 0x0D || n == 0x20
      || n == 0x85 || n == 0xA0
  else
    n == 0x1680 || (decide (0x2000 ≤ n) && decide (n ≤ 0x200A)) || n == 0x2028
      || n == 0x2029 || n == 0x202F || n == 0x205F || n == 0x3000

end unicode

namespace strings

/-- Go `strings.HasPrefix`: `len(s) >= len(p) && s[:len(p)] == p`. -/
def HasPrefix (s p : Str) : Bool :=
  decide (p.length ≤ s.length) && (s.take p.length == p)

/-- Go `strings.HasSuffix`: `len(s) >= len(suf) && s[len(s)-len(suf):] == suf`. -/
def HasSuffix (s suf : Str) : Bool :=
  decide (suf.length ≤ s.length) && (s.drop (s.length - suf.length) == suf)

/-- Go `strings.TrimSuffix`. -/
def TrimSuffix (s suf : Str) : Str :=
  if HasSuffix s suf then s.take (s.length - suf.length) else s

/-- Go `strings.Fields`: the maximal runs of characters that are not white
space, in order. -/
def Fields (s : Str) : List Str :=
  (s.splitOnP unicode.IsSpace).filter (fun f => !f.isEmpty)

/-- Go `strings.Split(s, sep)` for a separator of one character. -/
def Split (s : Str) (sep : Char) : List Str :=
  s.splitOn sep

/-- Go `strings.Join(elems, sep)`. -/
def Join (elems : List Str) (sep : Str) : Str :=
  sep.intercalate elems

end strings

namespace bufio

/-- The constant `MaxScanTokenSize` of Go `bufio`: the size the buffer of a
`Scanner` grows to, unless the caller gives it a buffer of its own. -/
def MaxScanTokenSize : Nat := 64 * 1024

/-- The error `ErrTooLong` of Go `bufio`. -/
def ErrTooLong : GoError := .lib "bufio.Scanner: token too long".toList

/-- The number of bytes of a Go string: the sum of the UTF-8 sizes of its
characters. -/
def byteLen (s : Str) : Nat :=
  (s.map Char.utf8Size).sum

/-- The function `dropCR` of Go `bufio`: one trailing carriage return is removed. -/
def dropCR (data : Str) : Str :=
  if data.getLast? = some '\r' then data.dropLast else data

/-- The lines of a text as the split function `ScanLines` cuts them, before
`dropCR`: the pieces between newlines, where a last piece without newline is a
line when it is not empty. -/
def lines (text : Str) : List Str :=
  let pieces := text.splitOn '\n'
  if pieces.getLast? = some [] then pieces.dropLast else pieces

/-- A `bufio.Scanner` with the default buffer and the split function
`ScanLines`, run over the lines of a file: the tokens `Scan` yields, in order,
and the value of `Err()` once `Scan` has returned false. A line of
`MaxScanTokenSize` bytes or more fills the buffer before a token is found:
there the scanner stops with `ErrTooLong`. Otherwise the line is a token, with
one trailing carriage return removed. After the last line `Err()` is `readErr`,
the error that ended the reading of the file (`none` at the end of the file). -/
def scanTokens (readErr : Option GoError) : List Str → List Str × Option GoError
  | [] => ([], readErr)
  | line :: rest =>
    if MaxScanTokenSize ≤ byteLen line then ([], some ErrTooLong)
    else
      let r := scanTokens readErr rest
      (dropCR line :: r.1, r.2)

/-- Every line of the text is shorter than `MaxScanTokenSize` bytes. -/
def fits (text : Str) : Bool :=
  (lines text).all fun line => decide (byteLen line < MaxScanTokenSize)

/-- The tokens the scanner yields on a text all of whose lines fit: its lines,
each with one trailing carriage return removed. -/
def scanLines (text : Str) : List Str :=
  (lines text).map dropCR

end bufio

namespace sumdb

/-- The struct `Module` of `sumdb.go`. -/
structure Module where
  Path : Str
  Version : Str
  Checksum : Str
  IsGoMod : Bool
deriving DecidableEq, Repr

/-- What `os.Open` gives for a file name, as the scanner reads it: the text
that is read, and the error that ends the reading (`none` at the end of the
file). -/
structure File where
  text : Str
  readErr : Option GoError

/-- The body of the scanning loop of `Parse`, for one line: `modules` is the
slice before the line and the result the slice after it. -/
def parseLine (modules : List Module) (line : Str) : List Module :=
  let parts := strings.Fields line
  if parts.length ≠ 3 then
    modules
  else
    let path := parts.getD 0 []
    let version := parts.getD 1 []
    let isGoMod := strings.HasSuffix version "/go.mod".toList
    let version := if isGoMod then strings.TrimSuffix version "/go.mod".toList else version
    modules ++ [{ Path := path, Version := version, Checksum := parts.getD 2 [], IsGoMod := isGoMod }]

/-- The function `Parse` of `sumdb.go`. `osOpen` is `os.Open`. The loop runs
over the tokens the scanner yields, and `scanner.Err()` is looked at after
it. -/
def Parse (osOpen : Str → Except GoError File) (filename : Str) :
    Except GoError (List Module) :=
  match osOpen filename with
  | .error err => .error (.wrap "failed to open go.sum".toList err)
  | .ok file =>
    let scanner := bufio.scanTokens file.readErr (bufio.lines file.text)
    let modules := scanner.1.foldl parseLine []
    match scanner.2 with
    | some err => .error (.wrap "failed to scan go.sum".toList err)
    | none => .ok modules

end sumdb

/-! ## The records of the specification -/

namespace Spec

/-- A manifest line is a record line when it splits on white space into
exactly three fields. -/
def isRecordLine (line : Str) : Bool :=
  (strings.Fields line).length == 3

/-- The record the specification gives for a three-field line. -/
def recordOf (line : Str) : sumdb.Module :=
  match strings.Fields line with
  | [path, versionField, digest] =>
    if strings.HasSuffix versionField "/go.mod".toList then
      { Path := path, Version := versionField.take (versionField.length - 7),
        Checksum := digest, IsGoMod := true }
    else
      { Path := path, Version := versionField, Checksum := digest, IsGoMod := false }
  | _ => { Path := [], Version := [], Checksum := [], IsGoMod := false }

/-- The records the specification gives for the lines of a manifest. -/
def records (lines : List Str) : List sumdb.Module :=
  (lines.filter isRecordLine).map recordOf

/-- The key of a manifest line: its first two fields. -/
def lineKey (line : Str) : Str × Str :=
  ((strings.Fields line).getD 0 [], (strings.Fields line).getD 1 [])

/-- The key of a record: module path, version and target kind. -/
def recordKey (m : sumdb.Module) : Str × Str × Bool :=
  (m.Path, m.Version, m.IsGoMod)

end Spec


namespace filepath

/-- Go `os.PathSeparator` on Unix. -/
def Separator : Char := '/'

/-- One turn of the loop of Go `filepath.Clean` (Unix), on the path element
`e` that stands between two separators. `out` holds the elements written so
far, the last one first. An empty element and `.` write nothing; `..` removes
the last element when there is one that is not `..` itself, is written when the
path is not rooted, and is dropped at the root; any other element is written. -/
def cleanElem (rooted : Bool) (out : List Str) (e : Str) : List Str :=
  if e = [] then out
  else if e = ['.'] then out
  else if e = ['.', '.'] then
    match out with
    | top :: below =>
      if top ≠ ['.', '.'] then below
      else if !rooted then e :: out
      else out
    | [] => if !rooted then [e] else out
  else e :: out

/-- Whether `filepath.Clean` treats the path as rooted: it starts with a
separator. -/
def rooted (path : Str) : Bool :=
  path.head? == some Separator

/-- The elements `filepath.Clean` has written when its loop over the path
ends, the last one first. -/
def written (path : Str) : List Str :=
  (path.splitOn Separator).foldl (cleanElem (rooted path)) []

/-- Go `filepath.Clean` on Unix: the empty path is `.`; otherwise the elements
between separators are processed in order, and the result is the written
elements joined by separators, after a leading separator when the path is
rooted, and `.` when nothing is written for a path that is not rooted. -/
def Clean (path : Str) : Str :=
  if path = [] then ['.']
  else
    let body := strings.Join (written path).reverse [Separator]
    if rooted path then Separator :: body
    else if written path = [] then ['.']
    else body

/-- Go `filepath.Join` on Unix: the elements from the first one that is not
empty on are joined by separators and cleaned; with no such element the result
is empty. -/
def Join (elem : List Str) : Str :=
  match elem.dropWhile (fun e => e.isEmpty) with
  | [] => []
  | e :: rest => Clean (strings.Join (e :: rest) [Separator])

/-- Go `filepath.Dir` on Unix: the path up to its last separator, cleaned. -/
def Dir (path : Str) : Str :=
  Clean (path.reverse.dropWhile (fun c => c != Separator)).reverse

end filepath

namespace module

/-- A `zip.File` as `extractZip` uses it, together with what the operating
system and the archive reader answer while the entry is extracted (`none` is a
`nil` error). -/
structure ZipFile where
  Name : Str
  IsDir : Bool
  Mode : Nat
  mkdirErr : Option GoError
  openFileErr : Option GoError
  openErr : Option GoError
  copyErr : Option GoError
deriving DecidableEq, Repr

/-- The calls of `extractZip` that change the file system. `OpenFile` is opened
with `O_WRONLY|O_CREATE|O_TRUNC`; `Copy path name` is `io.Copy` of the entry
`name` into the file opened at `path`. -/
inductive FsCall where
  | MkdirAll (path : Str)
  | OpenFile (path : Str) (mode : Nat)
  | Copy (path : Str) (name : Str)
deriving DecidableEq, Repr

/-- The containment check of `extractZip` on the joined path of an entry. -/
def pathAllowed (destDir name : Str) : Bool :=
  strings.HasPrefix (filepath.Join [destDir, name])
    (filepath.Clean destDir ++ [filepath.Separator])

/-- The loop of `extractZip` over `r.File`: the file system calls made, in
order, and the error returned (`none` is `nil`). -/
def extractFiles (destDir : Str) : List ZipFile → List FsCall × Option GoError
  | [] => ([], none)
  | f :: rest =>
    let fpath := filepath.Join [destDir, f.Name]
    if !pathAllowed destDir f.Name then
      ([], some (.errorf ("invalid file path: ".toList ++ fpath)))
    else if f.IsDir then
      let r := extractFiles destDir rest
      (.MkdirAll fpath :: r.1, r.2)
    else
      match f.mkdirErr with
      | some err => ([.MkdirAll (filepath.Dir fpath)], some err)
      | none =>
        match f.openFileErr with
        | some err => ([.MkdirAll (filepath.Dir fpath), .OpenFile fpath f.Mode], some err)
        | none =>
          match f.openErr with
          | some err => ([.MkdirAll (filepath.Dir fpath), .OpenFile fpath f.Mode], some err)
          | none =>
            match f.copyErr with
            | some err =>
              ([.MkdirAll (filepath.Dir fpath), .OpenFile fpath f.Mode, .Copy fpath f.Name],
                some err)
            | none =>
              let r := extractFiles destDir rest
              (.MkdirAll (filepath.Dir fpath) :: .OpenFile fpath f.Mode :: .Copy fpath f.Name
                :: r.1, r.2)

/-- The function `extractZip` of `module.go`. `openReader` is `zip.OpenReader`. -/
def extractZip (openReader : Str → Except GoError (List ZipFile)) (zipPath destDir : Str) :
    List FsCall × Option GoError :=
  match openReader zipPath with
  | .error err => ([], some err)
  | .ok files => extractFiles destDir files

/-- An `http.Response` as `FetchAndVerify` uses it. -/
structure Response where
  StatusCode : Int
  Body : Str
deriving DecidableEq, Repr

/-- An `os.DirEntry` as `FetchAndVerify` uses it. -/
structure DirEntry where
  Name : Str
  IsDir : Bool
deriving DecidableEq, Repr

/-- What the world outside the program answers to the calls of
`FetchAndVerify`: the file system, `http.Get`, `zip.OpenReader` and
`dirhash.HashDir` with `dirhash.Hash1` (`none` is a `nil` error). -/
structure World where
  MkdirAll : Str → Option GoError
  Get : Str → Except GoError Response
  Create : Str → Option GoError
  Copy : Str → Str → Option GoError
  OpenReader : Str → Except GoError (List ZipFile)
  ReadDir : Str → Except GoError (List DirEntry)
  HashDir : Str → Str → Except GoError Str

/-- The calls `FetchAndVerify` makes to the world, as they are made. The call
of `extractZip` carries the file system calls made inside it. -/
inductive Call where
  | MkdirAll (path : Str)
  | Get (url : Str)
  | Create (path : Str)
  | Copy (path : Str) (body : Str)
  | extractZip (zipPath destDir : Str) (calls : List FsCall)
  | ReadDir (path : Str)
  | HashDir (dir pfx : Str)
deriving DecidableEq, Repr

/-- The struct `Fetcher` of `module.go`. -/
structure Fetcher where
  cacheDir : Str
deriving DecidableEq, Repr

/-- The function `NewFetcher` of `module.go`. -/
def NewFetcher (mkdirAll : Str → Option GoError) (cacheDir : Str) : Except GoError Fetcher :=
  match mkdirAll cacheDir with
  | some err => .error (.wrap "failed to create cache directory".toList err)
  | none => .ok { cacheDir := cacheDir }

/-- The text `fmt` prints for an `int` under `%d`. -/
def formatInt (n : Int) : Str :=
  (toString n).toList

/-- The block of `FetchAndVerify` that sets `archiveURL`: the URL, or the error
the block returns with. -/
def archiveURL (path version : Str) : Except GoError Str :=
  if strings.HasPrefix path "github.com/".toList then
    let parts := strings.Split path '/'
    if parts.length < 3 then
      .error (.errorf ("invalid GitHub path: ".toList ++ path))
    else
      .ok ("https://github.com/".toList ++ parts.getD 1 [] ++ "/".toList ++ parts.getD 2 []
        ++ "/archive/refs/tags/".toList ++ version ++ ".zip".toList)
  else
    .ok ("https://".toList ++ path ++ "/archive/".toList ++ version ++ ".zip".toList)

/-- The message of the error `FetchAndVerify` returns when the checksums differ. -/
def mismatchMessage (path version expectedChecksum hash : Str) : Str :=
  "checksum mismatch for ".toList ++ path ++ "@".toList ++ version ++ ":\nexpected: ".toList
    ++ expectedChecksum ++ "\nactual: ".toList ++ hash

/-- The method `FetchAndVerify` of `module.go`: the calls made to the world, in
order, and the error returned (`none` is `nil`). -/
def Fetcher.FetchAndVerify (f : Fetcher) (w : World) (path version expectedChecksum : Str)
    (isGoMod : Bool) : List Call × Option GoError :=
  if isGoMod then ([], none)
  else
    let moduleDir := filepath.Join [f.cacheDir, path ++ "@".toList ++ version]
    let c1 := [Call.MkdirAll moduleDir]
    match w.MkdirAll moduleDir with
    | some err => (c1, some (.wrap "failed to create module directory".toList err))
    | none =>
      match archiveURL path version with
      | .error err => (c1, some err)
      | .ok url =>
        let c2 := c1 ++ [Call.Get url]
        match w.Get url with
        | .error err => (c2, some (.wrap "failed to fetch module".toList err))
        | .ok resp =>
          if resp.StatusCode ≠ 200 then
            (c2, some (.errorf ("failed to fetch module: HTTP ".toList
              ++ formatInt resp.StatusCode)))
          else
            let archivePath := filepath.Join [moduleDir, version ++ ".zip".toList]
            let c3 := c2 ++ [Call.Create archivePath]
            match w.Create archivePath with
            | some err => (c3, some (.wrap "failed to create archive file".toList err))
            | none =>
              let c4 := c3 ++ [Call.Copy archivePath resp.Body]
              match w.Copy archivePath resp.Body with
              | some err => (c4, some (.wrap "failed to save archive".toList err))
              | none =>
                let extractDir := filepath.Join [moduleDir, "extract".toList]
                let c5 := c4 ++ [Call.MkdirAll extractDir]
                match w.MkdirAll extractDir with
                | some err =>
                  (c5, some (.wrap "failed to create extract directory".toList err))
                | none =>
                  let x := extractZip w.OpenReader archivePath extractDir
                  let c6 := c5 ++ [Call.extractZip archivePath extractDir x.1]
                  match x.2 with
                  | some err => (c6, some (.wrap "failed to extract archive".toList err))
                  | none =>
                    let c7 := c6 ++ [Call.ReadDir extractDir]
                    match w.ReadDir extractDir with
                    | .error err =>
                      (c7, some (.wrap "failed to read extract directory".toList err))
                    | .ok entries =>
                      if entries.length ≠ 1 || !(entries.map DirEntry.IsDir).getD 0 false then
                        (c7, some (.errorf "unexpected archive structure".toList))
                      else
                        let rootDir :=
                          filepath.Join [extractDir, (entries.map DirEntry.Name).getD 0 []]
                        let pfx := path ++ "@".toList ++ version
                        let c8 := c7 ++ [Call.HashDir rootDir pfx]
                        match w.HashDir rootDir pfx with
                        | .error err =>
                          (c8, some (.wrap "failed to calculate checksum".toList err))
                        | .ok hash =>
                          if hash ≠ expectedChecksum then
                            (c8, some (.errorf
                              (mismatchMessage path version expectedChecksum hash)))
                          else (c8, none)


end module

namespace main

/-- What the record loop of `run` does, as it is done: a line printed with
`fmt.Printf`, or a call of `FetchAndVerify` with its arguments and the calls
made inside it. -/
inductive Event where
  | Printf (text : Str)
  | FetchAndVerify (path version checksum : Str) (isGoMod : Bool) (calls : List module.Call)
  | RemoveAll (path : Str)
deriving DecidableEq, Repr

/-- The record loop of `run`. `world i` is the world that `FetchAndVerify` finds
in turn `i` of the loop; the first argument counts the turns. -/
def checkModules (fetcher : module.Fetcher) (world : Nat → module.World) :
    Nat → List sumdb.Module → List Event
  | _, [] => []
  | i, mod :: rest =>
    if mod.IsGoMod then
      checkModules fetcher world (i + 1) rest
    else
      let r := fetcher.FetchAndVerify (world i) mod.Path mod.Version mod.Checksum mod.IsGoMod
      let outcome :=
        match r.2 with
        | some err => Event.Printf ("\u26a0\ufe0f  WARNING: ".toList ++ err.Error ++ "\n".toList)
        | none =>
          Event.Printf ("\u2705 Verified ".toList ++ mod.Path ++ "@".toList ++ mod.Version
            ++ "\n".toList)
      Event.Printf ("Checking ".toList ++ mod.Path ++ "@".toList ++ mod.Version
          ++ "...\n".toList)
        :: Event.FetchAndVerify mod.Path mod.Version mod.Checksum mod.IsGoMod r.1
        :: outcome :: checkModules fetcher world (i + 1) rest

/-- What the world answers to the calls of `run` itself, and the worlds the
turns of its loop find. -/
structure Setup where
  osOpen : Str → Except GoError sumdb.File
  MkdirTemp : Except GoError Str
  MkdirAll : Str → Option GoError
  world : Nat → module.World

/-- The function `run` of `main.go`: what it does, in order, and the error it
returns (`none` is `nil`). The deferred `os.RemoveAll` comes last. -/
def run (s : Setup) (projectDir : Str) : List Event × Option GoError :=
  match sumdb.Parse s.osOpen (filepath.Join [projectDir, "go.sum".toList]) with
  | .error err => ([], some (.wrap "failed to parse go.sum".toList err))
  | .ok modules =>
    match s.MkdirTemp with
    | .error err => ([], some (.wrap "failed to create temp directory".toList err))
    | .ok tempDir =>
      match module.NewFetcher s.MkdirAll tempDir with
      | .error err =>
        ([Event.RemoveAll tempDir], some (.wrap "failed to create module fetcher".toList err))
      | .ok fetcher =>
        (checkModules fetcher s.world 0 modules ++ [Event.RemoveAll tempDir], none)

end main

namespace Spec

/-- A plain path segment: not empty, not `.`, not `..`, and without separator. -/
def isPlainSegment (e : Str) : Bool :=
  e != [] && e != ['.'] && e != ['.', '.'] && !e.contains filepath.Separator

/-- The path `fpath` lies lexically strictly inside the directory `dir`: it is
the cleaned `dir`, a separator, and then plain segments separated by
separators. -/
def inside (dir fpath : Str) : Bool :=
  let root := filepath.Clean dir ++ [filepath.Separator]
  strings.HasPrefix fpath root &&
    ((fpath.drop root.length).splitOn filepath.Separator).all isPlainSegment

/-- The file system calls that extracting the entry `f` into `destDir` consists
of: a directory entry is created with `MkdirAll`; for a file entry the parent
directory is created, the file is created or truncated, and the content is
copied into it. -/
def entryCalls (destDir : Str) (f : module.ZipFile) : List module.FsCall :=
  let fpath := filepath.Join [destDir, f.Name]
  if f.IsDir then [.MkdirAll fpath]
  else [.MkdirAll (filepath.Dir fpath), .OpenFile fpath f.Mode, .Copy fpath f.Name]

/-- The entry `f` passes the containment check and none of the calls made for
it fails. -/
def extractsCleanly (destDir : Str) (f : module.ZipFile) : Bool :=
  module.pathAllowed destDir f.Name &&
    (f.IsDir || (f.mkdirErr.isNone && f.openFileErr.isNone && f.openErr.isNone
      && f.copyErr.isNone))

/-- The verification outcome of the specification, for one record. -/
inductive Outcome where
  | Verified
  | Mismatch (expected actual : Str)
  | Error (cause : GoError)
deriving DecidableEq, Repr

/-- A step that answers with an error only: it goes on when the answer is `nil`. -/
def step : Option GoError → Except GoError Unit
  | none => .ok ()
  | some err => .error err

/-- The component steps of one verification, in the sequence of the
specification (Fetcher, Extractor, Hash Engine), in the world `w`: the digest
computed, or the cause of the first step that fails. -/
def pipeline (f : module.Fetcher) (w : module.World) (path version : Str) :
    Except GoError Str := do
  let moduleDir := filepath.Join [f.cacheDir, path ++ "@".toList ++ version]
  step (w.MkdirAll moduleDir)
  let url ← module.archiveURL path version
  let resp ← w.Get url
  if resp.StatusCode ≠ 200 then
    throw (.errorf ("failed to fetch module: HTTP ".toList ++ module.formatInt resp.StatusCode))
  let archivePath := filepath.Join [moduleDir, version ++ ".zip".toList]
  step (w.Create archivePath)
  step (w.Copy archivePath resp.Body)
  let extractDir := filepath.Join [moduleDir, "extract".toList]
  step (w.MkdirAll extractDir)
  step (module.extractZip w.OpenReader archivePath extractDir).2
  let entries ← w.ReadDir extractDir
  match entries with
  | [root] =>
    if root.IsDir then
      w.HashDir (filepath.Join [extractDir, root.Name]) (path ++ "@".toList ++ version)
    else throw (.errorf "unexpected archive structure".toList)
  | _ => throw (.errorf "unexpected archive structure".toList)

/-- The outcome mapping of the specification: equal digests are `Verified`,
unequal ones a `Mismatch` with both values, a failed step an `Error` with its
cause. -/
def outcome (expectedDigest : Str) : Except GoError Str → Outcome
  | .ok digest => if digest = expectedDigest then .Verified else .Mismatch expectedDigest digest
  | .error cause => .Error cause

/-- The Go `errors.Unwrap`: the error wrapped with `%w`, when there is one. -/
def unwrap : GoError → Option GoError
  | .wrap _ cause => some cause
  | _ => none

/-- The Go error value `r` expresses the outcome: `nil` for `Verified`; for a
`Mismatch` an error made with `fmt.Errorf` whose message holds both digests;
for an `Error` the cause itself or an error that wraps it. -/
def expresses (r : Option GoError) : Outcome → Bool
  | .Verified => r.isNone
  | .Mismatch expected actual =>
    match r with
    | some (.errorf msg) => decide (expected <:+: msg) && decide (actual <:+: msg)
    | _ => false
  | .Error cause =>
    match r with
    | some err => err == cause || unwrap err == some cause
    | none => false

/-- The arguments of the calls of `FetchAndVerify` among the events of the
record loop, in order. -/
def invocations : List main.Event → List (Str × Str × Str × Bool)
  | [] => []
  | .FetchAndVerify path version checksum isGoMod _ :: rest =>
    (path, version, checksum, isGoMod) :: invocations rest
  | _ :: rest => invocations rest

/-- Modelled from the spec: the Content Hash Engine of section 4.4 (the library
function `dirhash.HashDir` with `dirhash.Hash1`, whose source is not among the
files of the repository). `files` are the regular files of the tree as they are
enumerated, each a relative path with its bytes; `contentHashHex` is the
cryptographic hash of step 2 in hexadecimal, `finalHashBase64` the hash of step
5 in standard base64. One line is formed for each file, the lines are sorted
by their full text, concatenated and hashed, and the tag `h1:` is put in
front. -/
def treeDigest (contentHashHex finalHashBase64 : Str → Str) (pfx : Str)
    (files : List (Str × Str)) : Str :=
  let lines := files.map fun file =>
    contentHashHex file.2 ++ "  ".toList ++ pfx ++ "/".toList ++ file.1 ++ "\n".toList
  let sorted := lines.insertionSort (· ≤ ·)
  "h1:".toList ++ finalHashBase64 sorted.flatten

/-- The elements `filepath.Clean` has written are in canonical order: seen from
the last one, plain segments first and then only `..` segments, and no `..`
segment at all in a rooted path. -/
def Canon (rooted : Bool) (out : List Str) : Prop :=
  ∃ ps ds, out = ps ++ ds ∧ (∀ e ∈ ps, isPlainSegment e = true) ∧
    (∀ e ∈ ds, e = ['.', '.']) ∧ (rooted = true → ds = [])

end Spec


/-! ## Concrete inputs -/

namespace Example

/-- A world in which every call succeeds: the server answers with `status`, the
archive holds one directory with one file, and the tree hashes to `digest`. -/
def world (status : Int) (digest : Str) : module.World where
  MkdirAll := fun _ => none
  Get := fun _ => .ok { StatusCode := status, Body := "PK".toList }
  Create := fun _ => none
  Copy := fun _ _ => none
  OpenReader := fun _ => .ok
    [{ Name := "pkg-1.0.0/".toList, IsDir := true, Mode := 493, mkdirErr := none,
        openFileErr := none, openErr := none, copyErr := none },
      { Name := "pkg-1.0.0/a.go".toList, IsDir := false, Mode := 420, mkdirErr := none,
        openFileErr := none, openErr := none, copyErr := none }]
  ReadDir := fun _ => .ok [{ Name := "pkg-1.0.0".toList, IsDir := true }]
  HashDir := fun _ _ => .ok digest

/-- A fetcher with the cache directory `/tmp/cache`. -/
def fetcher : module.Fetcher := { cacheDir := "/tmp/cache".toList }

/-- A file entry of an archive, with the given name, that is extracted without
a failing call. -/
def file (name : Str) : module.ZipFile :=
  { Name := name, IsDir := false, Mode := 420, mkdirErr := none, openFileErr := none,
    openErr := none, copyErr := none }

/-- A file entry of an archive whose parent directory cannot be created: the
call of `os.MkdirAll` for it fails with `err`. -/
def blockedFile (name : Str) (err : GoError) : module.ZipFile :=
  { Name := name, IsDir := false, Mode := 420, mkdirErr := some err, openFileErr := none,
    openErr := none, copyErr := none }

/-- A line of two fields, the first of `MaxScanTokenSize` bytes. -/
def longLine : Str :=
  List.replicate bufio.MaxScanTokenSize 'x' ++ " y".toList

/-- The setup of `run` on a manifest `text`: every call of `run` itself
succeeds, and turn `i` of the loop finds the world `worlds i`. -/
def setup (text : Str) (worlds : Nat → module.World) : main.Setup where
  osOpen := fun _ => .ok { text := text, readErr := none }
  MkdirTemp := .ok "/tmp/go-mal-pkgs-1".toList
  MkdirAll := fun _ => none
  world := worlds

end Example

/-! ## Theorems -/

/-! ### Strings -/

/-- The test of `strings.HasSuffix` holds exactly for a suffix. -/
theorem strings.HasSuffix_iff (s suf : Str) : strings.HasSuffix s suf = true ↔ suf <:+ s := by
  unfold strings.HasSuffix
  constructor
  · intro h
    simp only [Bool.and_eq_true, decide_eq_true_eq, beq_iff_eq] at h
    have := List.take_append_drop (s.length - suf.length) s
    rw [h.2] at this
    exact ⟨_, this⟩
  · rintro ⟨t, rfl⟩
    simp

/-- The test of `strings.HasPrefix` holds exactly for a leading part. -/
theorem strings.HasPrefix_iff (s p : Str) : strings.HasPrefix s p = true ↔ p <+: s := by
  unfold strings.HasPrefix
  constructor
  · intro h
    simp only [Bool.and_eq_true, decide_eq_true_eq, beq_iff_eq] at h
    have := List.take_append_drop p.length s
    rw [h.2] at this
    exact ⟨_, this⟩
  · rintro ⟨t, rfl⟩
    simp

/-- Splitting a list that has a separator in the middle splits the two sides. -/
theorem List.splitOnP_append_sep {α : Type} (p : α → Bool) (xs ys : List α) (sep : α) (h : p sep = true) :
    (xs ++ sep :: ys).splitOnP p = xs.splitOnP p ++ ys.splitOnP p := by
  induction xs with
  | nil => simp [List.splitOnP_cons, h]
  | cons x xs ih =>
    rw [List.cons_append, List.splitOnP_cons, List.splitOnP_cons, ih]
    by_cases hx : p x = true
    · simp [hx]
    · simp only [hx]
      cases hsp : xs.splitOnP p with
      | nil => exact absurd hsp (List.splitOnP_ne_nil p xs)
      | cons a as => simp

/-- No piece of a split holds the separator. -/
theorem List.not_mem_of_mem_splitOn {α : Type} [DecidableEq α] (c : α) (l : List α) :
    ∀ e ∈ l.splitOn c, c ∉ e := by
  induction l with
  | nil => simp [List.splitOn]
  | cons x xs ih =>
    intro e he
    rw [List.splitOn, List.splitOnP_cons] at he
    by_cases hx : (x == c) = true
    · simp only [hx, if_true, List.mem_cons] at he
      rcases he with rfl | he
      · simp
      · exact ih e he
    · simp only [hx] at he
      cases hsp : List.splitOnP (fun y => y == c) xs with
      | nil => exact absurd hsp (List.splitOnP_ne_nil _ xs)
      | cons a as =>
        have iha : ∀ e ∈ a :: as, c ∉ e := by
          intro e he; exact ih e (by rw [List.splitOn, hsp]; exact he)
        rw [hsp] at he
        simp only [Bool.false_eq_true, if_false, List.modifyHead_cons, List.mem_cons] at he
        rcases he with rfl | he
        · intro hc
          rcases List.mem_cons.mp hc with h | h
          · exact hx (by simp [h])
          · exact iha a (List.mem_cons_self _ _) h
        · exact iha e (List.mem_cons_of_mem _ he)

theorem List.splitOn_first (xs rest : Str) (c : Char) (h : c ∉ xs) :
    (xs ++ c :: rest).splitOn c = xs :: rest.splitOn c := by
  apply List.splitOnP_first
  · intro x hx
    simp only [beq_iff_eq]
    rintro rfl
    exact h hx
  · simp

theorem List.splitOn_head (xs more : Str) (c : Char) (h : c ∉ xs)
    (hmore : more = [] ∨ more.head? = some c) :
    ∃ tl, (xs ++ more).splitOn c = xs :: tl := by
  rcases hmore with rfl | hm
  · refine ⟨[], ?_⟩
    rw [List.append_nil]
    apply List.splitOnP_eq_single
    intro x hx
    simp only [beq_iff_eq]
    rintro rfl
    exact h hx
  · cases more with
    | nil => simp at hm
    | cons m ms =>
      simp only [List.head?_cons, Option.some.injEq] at hm
      subst hm
      exact ⟨_, List.splitOn_first xs ms m h⟩

/-! ### The manifest parser -/

/-- The loop body of `Parse` appends the record of a three-field line and skips any other line. -/
theorem sumdb.parseLine_eq (modules : List sumdb.Module) (line : Str) :
    sumdb.parseLine modules line =
      if Spec.isRecordLine line then modules ++ [Spec.recordOf line] else modules := by
  by_cases h : (strings.Fields line).length = 3
  · obtain ⟨p, v, d, hF⟩ := List.length_eq_three.mp h
    cases hs : strings.HasSuffix v "/go.mod".toList <;> simp at hs <;>
      simp [sumdb.parseLine, Spec.isRecordLine, Spec.recordOf, hF, hs, strings.TrimSuffix]
  · simp [sumdb.parseLine, Spec.isRecordLine, h]

/-- The loop of `Parse` appends the records of the three-field lines, in order. -/
theorem sumdb.foldl_parseLine (lines : List Str) (acc : List sumdb.Module) :
    lines.foldl sumdb.parseLine acc = acc ++ Spec.records lines := by
  induction lines generalizing acc with
  | nil => simp [Spec.records]
  | cons l ls ih =>
    rw [List.foldl_cons, ih, sumdb.parseLine_eq]
    by_cases h : Spec.isRecordLine l = true
    · simp [Spec.records, h, List.filter_cons]
    · simp [Spec.records, h, List.filter_cons]

/-- A trailing carriage return does not change the fields of a line. -/
theorem strings.Fields_dropCR (line : Str) :
    strings.Fields (bufio.dropCR line) = strings.Fields line := by
  unfold bufio.dropCR
  split
  · rename_i h
    obtain ⟨ys, rfl⟩ := List.getLast?_eq_some_iff.mp h
    have hsp : unicode.IsSpace '\r' = true := by decide
    simp [strings.Fields, List.splitOnP_append_sep _ ys [] '\r' hsp]
  · rfl

theorem Spec.records_append (xs ys : List Str) :
    Spec.records (xs ++ ys) = Spec.records xs ++ Spec.records ys := by
  simp [Spec.records]

/-- The lines of a text with a newline in it: the lines before the newline, then the lines of the rest. -/
theorem bufio.lines_append_newline (a b : Str) :
    bufio.lines (a ++ '\n' :: b) = a.splitOn '\n' ++ bufio.lines b := by
  have hsplit : (a ++ '\n' :: b).splitOn '\n' = a.splitOn '\n' ++ b.splitOn '\n' :=
    List.splitOnP_append_sep _ a b '\n' (by simp)
  have hne : b.splitOn '\n' ≠ [] := List.splitOnP_ne_nil _ b
  obtain ⟨q, hq⟩ : ∃ q, (b.splitOn '\n').getLast? = some q := by
    cases h : (b.splitOn '\n').getLast? with
    | none => exact absurd (List.getLast?_eq_none_iff.mp h) hne
    | some q => exact ⟨q, rfl⟩
  simp only [bufio.lines, hsplit, List.getLast?_append, hq, Option.or_some]
  by_cases h : q = []
  · simp [h, List.dropLast_append_of_ne_nil _ hne]
  · simp [h]

theorem bufio.lines_line (line b : Str) (h : '\n' ∉ line) :
    bufio.lines (line ++ '\n' :: b) = line :: bufio.lines b := by
  rw [bufio.lines_append_newline]
  have : line.splitOn '\n' = [line] := by
    apply List.splitOnP_eq_single
    intro x hx
    simp only [beq_iff_eq]
    rintro rfl
    exact h hx
  simp [this]

theorem bufio.byteLen_append (a b : Str) :
    bufio.byteLen (a ++ b) = bufio.byteLen a + bufio.byteLen b := by
  simp [bufio.byteLen]

theorem bufio.byteLen_replicate (n : Nat) (c : Char) :
    bufio.byteLen (List.replicate n c) = n * c.utf8Size := by
  simp [bufio.byteLen]

/-- When every line fits the buffer the scanner yields all of them and ends with the read error. -/
theorem bufio.scanTokens_of_fits (readErr : Option GoError) (ls : List Str)
    (h : ∀ l ∈ ls, bufio.byteLen l < bufio.MaxScanTokenSize) :
    bufio.scanTokens readErr ls = (ls.map bufio.dropCR, readErr) := by
  induction ls with
  | nil => rfl
  | cons l ls ih =>
    have hl := h l (List.mem_cons_self _ _)
    have ih' := ih (fun x hx => h x (List.mem_cons_of_mem _ hx))
    simp only [bufio.scanTokens, Nat.not_le.mpr hl, if_false, ih', List.map_cons]

/-- A line that does not fit the buffer ends the scan with `ErrTooLong`. -/
theorem bufio.scanTokens_too_long (readErr : Option GoError) (ls : List Str)
    (h : ∃ l ∈ ls, bufio.MaxScanTokenSize ≤ bufio.byteLen l) :
    (bufio.scanTokens readErr ls).2 = some bufio.ErrTooLong := by
  induction ls with
  | nil => obtain ⟨l, hl, -⟩ := h; simp at hl
  | cons a as ih =>
    by_cases ha : bufio.MaxScanTokenSize ≤ bufio.byteLen a
    · simp [bufio.scanTokens, ha]
    · obtain ⟨l, hl, hlong⟩ := h
      rcases List.mem_cons.mp hl with rfl | hl'
      · exact absurd hlong ha
      · simp only [bufio.scanTokens, ha, if_false]
        exact ih ⟨l, hl', hlong⟩

/-- A short line that is no record line changes neither the error of the scan nor the records of its tokens. -/
theorem bufio.scanTokens_insert (readErr : Option GoError) (before after : List Str) (line : Str)
    (hshort : bufio.byteLen line < bufio.MaxScanTokenSize)
    (hfields : (strings.Fields line).length ≠ 3) :
    (bufio.scanTokens readErr (before ++ line :: after)).2
        = (bufio.scanTokens readErr (before ++ after)).2 ∧
      Spec.records (bufio.scanTokens readErr (before ++ line :: after)).1
        = Spec.records (bufio.scanTokens readErr (before ++ after)).1 := by
  have hbad : Spec.isRecordLine (bufio.dropCR line) = false := by
    simp [Spec.isRecordLine, strings.Fields_dropCR, hfields]
  induction before with
  | nil =>
    simp only [List.nil_append, bufio.scanTokens, Nat.not_le.mpr hshort, if_false, true_and]
    simp [Spec.records, List.filter_cons, hbad]
  | cons a as ih =>
    by_cases ha : bufio.MaxScanTokenSize ≤ bufio.byteLen a
    · simp [bufio.scanTokens, ha]
    · simp only [List.cons_append, bufio.scanTokens, ha, if_false]
      refine ⟨ih.1, ?_⟩
      have h1 := Spec.records_append [bufio.dropCR a]
        (bufio.scanTokens readErr (as ++ line :: after)).1
      have h2 := Spec.records_append [bufio.dropCR a]
        (bufio.scanTokens readErr (as ++ after)).1
      simp only [List.singleton_append] at h1 h2
      show Spec.records (bufio.dropCR a :: (bufio.scanTokens readErr (as ++ line :: after)).1)
        = Spec.records (bufio.dropCR a :: (bufio.scanTokens readErr (as ++ after)).1)
      rw [h1, h2, ih.2]

theorem sumdb.Parse_eq (text filename : Str) (readErr : Option GoError) :
    sumdb.Parse (fun _ => .ok ⟨text, readErr⟩) filename
      = match (bufio.scanTokens readErr (bufio.lines text)).2 with
        | some err => .error (.wrap "failed to scan go.sum".toList err)
        | none => .ok (Spec.records (bufio.scanTokens readErr (bufio.lines text)).1) := by
  simp only [sumdb.Parse, sumdb.foldl_parseLine, List.nil_append]

/-- On a file whose lines all fit the buffer, read to its end, `Parse` returns the records of its lines. -/
theorem sumdb.Parse_ok (text filename : Str) (h : bufio.fits text = true) :
    sumdb.Parse (fun _ => .ok ⟨text, none⟩) filename
      = .ok (Spec.records (bufio.scanLines text)) := by
  have hfit : ∀ l ∈ bufio.lines text, bufio.byteLen l < bufio.MaxScanTokenSize := by
    simpa [bufio.fits] using h
  rw [sumdb.Parse_eq, bufio.scanTokens_of_fits none _ hfit]
  rfl

/-- On a file with a line that does not fit the buffer `Parse` returns the scan error. -/
theorem sumdb.Parse_too_long (text filename : Str) (h : bufio.fits text = false) :
    sumdb.Parse (fun _ => .ok ⟨text, none⟩) filename
      = .error (.wrap "failed to scan go.sum".toList bufio.ErrTooLong) := by
  have hlong : ∃ l ∈ bufio.lines text, bufio.MaxScanTokenSize ≤ bufio.byteLen l := by
    have : ¬ ∀ l ∈ bufio.lines text, bufio.byteLen l < bufio.MaxScanTokenSize := by
      intro hc
      have : bufio.fits text = true := by simpa [bufio.fits] using hc
      rw [h] at this
      exact absurd this (by decide)
    push_neg at this
    exact this
  rw [sumdb.Parse_eq, bufio.scanTokens_too_long none _ hlong]

/-- A short line with another number of fields than three, put in at a line boundary, does not change what `Parse` returns. -/
theorem sumdb.Parse_insert (head tail line filename : Str)
    (hhead : head = [] ∨ head.getLast? = some '\n') (hline : '\n' ∉ line)
    (hshort : bufio.byteLen line < bufio.MaxScanTokenSize)
    (hfields : (strings.Fields line).length ≠ 3) :
    sumdb.Parse (fun _ => .ok ⟨head ++ (line ++ '\n' :: tail), none⟩) filename
      = sumdb.Parse (fun _ => .ok ⟨head ++ tail, none⟩) filename := by
  have key : ∃ before, bufio.lines (head ++ (line ++ '\n' :: tail))
        = before ++ line :: bufio.lines tail ∧
      bufio.lines (head ++ tail) = before ++ bufio.lines tail := by
    rcases hhead with rfl | hlast
    · exact ⟨[], by simp [bufio.lines_line line tail hline], by simp⟩
    · obtain ⟨ys, rfl⟩ := List.getLast?_eq_some_iff.mp hlast
      refine ⟨ys.splitOn '\n', ?_, ?_⟩
      · simp only [List.append_assoc, List.singleton_append]
        rw [bufio.lines_append_newline ys, bufio.lines_line line tail hline]
      · simp only [List.append_assoc, List.singleton_append]
        rw [bufio.lines_append_newline ys]
  obtain ⟨before, h1, h2⟩ := key
  have hins := bufio.scanTokens_insert none before (bufio.lines tail) line hshort hfields
  rw [sumdb.Parse_eq, sumdb.Parse_eq, h1, h2, hins.1, hins.2]

theorem Example.replicate_line (n : Nat) (hn : 0 < n) :
    (strings.Fields (List.replicate n 'x' ++ " y".toList)).length = 2 ∧
      '\n' ∉ List.replicate n 'x' ++ " y".toList ∧
      bufio.byteLen (List.replicate n 'x' ++ " y".toList) = n + 2 := by
  refine ⟨?_, ?_, ?_⟩
  · have hsplit : (List.replicate n 'x' ++ ' ' :: ['y']).splitOnP unicode.IsSpace
        = List.replicate n 'x' :: ['y'].splitOnP unicode.IsSpace := by
      apply List.splitOnP_first
      · intro c hc
        rw [List.eq_of_mem_replicate hc]
        decide
      · decide
    have hy : ['y'].splitOnP unicode.IsSpace = [['y']] := by decide
    have hne : (List.replicate n 'x').isEmpty = false := by
      obtain ⟨m, rfl⟩ := Nat.exists_eq_succ_of_ne_zero (Nat.pos_iff_ne_zero.mp hn)
      rfl
    have e : " y".toList = ' ' :: ['y'] := rfl
    rw [strings.Fields, e, hsplit, hy]
    simp only [List.filter_cons, hne, Bool.not_false, if_true]
    rfl
  · intro hc
    rcases List.mem_append.mp hc with h | h
    · exact absurd (List.eq_of_mem_replicate h) (by decide)
    · revert h; decide
  · rw [bufio.byteLen_append, bufio.byteLen_replicate]
    have h1 : Char.utf8Size 'x' = 1 := by decide
    have h2 : bufio.byteLen " y".toList = 2 := by decide
    rw [h1, h2, Nat.mul_one]

/-- Claim C2, as the code has it. On a manifest all of whose lines are shorter
than 65536 bytes, the size of the buffer of the scanner, `Parse` returns one
record for each line that splits on white space into exactly three fields, in
the order of the lines, and nothing for the other lines. On a manifest with a
line of 65536 bytes or more it returns the error `failed to scan go.sum`
around `bufio.ErrTooLong`, and no records. A line with another number of
fields that is shorter than 65536 bytes, put in at a line boundary, leaves the
result as it was, whatever the rest of the manifest is. -/
theorem Parse_manifest_tolerance (text filename : Str) :
    (bufio.fits text = true →
        sumdb.Parse (fun _ => .ok ⟨text, none⟩) filename
          = .ok (((bufio.scanLines text).filter Spec.isRecordLine).map Spec.recordOf)) ∧
      (bufio.fits text = false →
        sumdb.Parse (fun _ => .ok ⟨text, none⟩) filename
          = .error (.wrap "failed to scan go.sum".toList bufio.ErrTooLong)) ∧
      ∀ (head tail line : Str), (head = [] ∨ head.getLast? = some '\n') → '\n' ∉ line →
        bufio.byteLen line < bufio.MaxScanTokenSize →
        (strings.Fields line).length ≠ 3 →
        sumdb.Parse (fun _ => .ok ⟨head ++ (line ++ '\n' :: tail), none⟩) filename
          = sumdb.Parse (fun _ => .ok ⟨head ++ tail, none⟩) filename :=
  ⟨fun h => sumdb.Parse_ok text filename h, fun h => sumdb.Parse_too_long text filename h,
    fun head tail line hhead hline hshort hfields =>
      sumdb.Parse_insert head tail line filename hhead hline hshort hfields⟩

theorem Parse_manifest_tolerance_witness :
    sumdb.Parse (fun _ => .ok ⟨"a v1 h1:x\n".toList ++ ("two fields".toList ++ '\n' :: "b v2 h1:y\n".toList), none⟩) []
      = sumdb.Parse (fun _ => .ok ⟨"a v1 h1:x\n".toList ++ "b v2 h1:y\n".toList, none⟩) [] :=
  (Parse_manifest_tolerance [] []).2.2 "a v1 h1:x\n".toList "b v2 h1:y\n".toList "two fields".toList
    (Or.inr (by decide)) (by decide) (by decide) (by decide)

/-- Claim C2 as stated fails: `Example.longLine` is a line of two fields, and
put in between the two lines of a manifest it is not skipped: `Parse` returns
the scan error and no records, where without the line it returns the two
records. -/
theorem Parse_long_line_not_skipped :
    (strings.Fields Example.longLine).length = 2 ∧ '\n' ∉ Example.longLine ∧
      sumdb.Parse (fun _ => .ok ⟨"a v1 h1:x\n".toList
          ++ (Example.longLine ++ '\n' :: "b v2 h1:y\n".toList), none⟩) []
        = .error (.wrap "failed to scan go.sum".toList bufio.ErrTooLong) ∧
      sumdb.Parse (fun _ => .ok ⟨"a v1 h1:x\n".toList ++ "b v2 h1:y\n".toList, none⟩) []
        = .ok [⟨"a".toList, "v1".toList, "h1:x".toList, false⟩,
            ⟨"b".toList, "v2".toList, "h1:y".toList, false⟩] := by
  have hfacts : (strings.Fields Example.longLine).length = 2 ∧ '\n' ∉ Example.longLine ∧
      bufio.byteLen Example.longLine = bufio.MaxScanTokenSize + 2 :=
    Example.replicate_line bufio.MaxScanTokenSize (by decide)
  refine ⟨hfacts.1, hfacts.2.1, ?_, rfl⟩
  apply sumdb.Parse_too_long
  cases hfit : bufio.fits ("a v1 h1:x\n".toList
      ++ (Example.longLine ++ '\n' :: "b v2 h1:y\n".toList)) with
  | false => rfl
  | true =>
    exfalso
    have hall : ∀ l ∈ bufio.lines ("a v1 h1:x\n".toList
        ++ (Example.longLine ++ '\n' :: "b v2 h1:y\n".toList)),
        bufio.byteLen l < bufio.MaxScanTokenSize := by
      simpa [bufio.fits] using hfit
    have e : "a v1 h1:x\n".toList = "a v1 h1:x".toList ++ ['\n'] := rfl
    have hmem : Example.longLine ∈ bufio.lines ("a v1 h1:x\n".toList
        ++ (Example.longLine ++ '\n' :: "b v2 h1:y\n".toList)) := by
      rw [e, List.append_assoc, List.singleton_append, bufio.lines_append_newline,
        bufio.lines_line _ _ hfacts.2.1]
      simp
    have hlt := hall _ hmem
    have hlen : bufio.byteLen Example.longLine = bufio.MaxScanTokenSize + 2 := hfacts.2.2
    omega

theorem Spec.recordOf_of_fields (line path versionField digest : Str)
    (h : strings.Fields line = [path, versionField, digest]) :
    (∀ v, versionField = v ++ "/go.mod".toList →
        Spec.recordOf line = ⟨path, v, digest, true⟩) ∧
      (¬ "/go.mod".toList <:+ versionField →
        Spec.recordOf line = ⟨path, versionField, digest, false⟩) := by
  constructor
  · rintro v rfl
    have hs : strings.HasSuffix (v ++ "/go.mod".toList) "/go.mod".toList = true :=
      (strings.HasSuffix_iff _ _).mpr ⟨v, rfl⟩
    simp only [Spec.recordOf, h, hs, if_true]
    simp
  · intro hns
    have hs : ¬ strings.HasSuffix versionField "/go.mod".toList = true :=
      fun hc => hns ((strings.HasSuffix_iff _ _).mp hc)
    simp only [Spec.recordOf, h, hs, if_false]
    simp

/-- Claim C3. For a line whose fields are `path versionField digest`, the loop
body of `Parse` appends one record: when `versionField` is `v` followed by
`/go.mod` the record is `(path, v, digest, IsGoMod = true)`, and when
`versionField` does not end in `/go.mod` it is
`(path, versionField, digest, IsGoMod = false)`; path and digest are copied as
they are. -/
theorem parseLine_declaration_suffix (modules : List sumdb.Module)
    (line path versionField digest : Str)
    (h : strings.Fields line = [path, versionField, digest]) :
    (∀ v, versionField = v ++ "/go.mod".toList →
        sumdb.parseLine modules line = modules ++ [⟨path, v, digest, true⟩]) ∧
      (¬ "/go.mod".toList <:+ versionField →
        sumdb.parseLine modules line = modules ++ [⟨path, versionField, digest, false⟩]) := by
  have hrec : Spec.isRecordLine line = true := by simp [Spec.isRecordLine, h]
  have hspec := Spec.recordOf_of_fields line path versionField digest h
  rw [sumdb.parseLine_eq, hrec]
  simp only [if_true]
  exact ⟨fun v hv => by rw [hspec.1 v hv], fun hns => by rw [hspec.2 hns]⟩

theorem parseLine_declaration_suffix_witness :
    sumdb.parseLine [] "golang.org/x/text v1.2.3/go.mod h1:abc=".toList
        = [] ++ [⟨"golang.org/x/text".toList, "v1.2.3".toList, "h1:abc=".toList, true⟩] ∧
      sumdb.parseLine [] "golang.org/x/text v1.2.3 h1:def=".toList
        = [] ++ [⟨"golang.org/x/text".toList, "v1.2.3".toList, "h1:def=".toList, false⟩] :=
  ⟨(parseLine_declaration_suffix [] "golang.org/x/text v1.2.3/go.mod h1:abc=".toList
      "golang.org/x/text".toList "v1.2.3/go.mod".toList "h1:abc=".toList (by decide)).1
      "v1.2.3".toList (by decide),
    (parseLine_declaration_suffix [] "golang.org/x/text v1.2.3 h1:def=".toList
      "golang.org/x/text".toList "v1.2.3".toList "h1:def=".toList (by decide)).2 (by decide)⟩

theorem Spec.lineKey_of_recordKey (l₁ l₂ : Str) (h₁ : Spec.isRecordLine l₁ = true)
    (h₂ : Spec.isRecordLine l₂ = true)
    (h : Spec.recordKey (Spec.recordOf l₁) = Spec.recordKey (Spec.recordOf l₂)) :
    Spec.lineKey l₁ = Spec.lineKey l₂ := by
  simp only [Spec.isRecordLine, beq_iff_eq] at h₁ h₂
  obtain ⟨p₁, v₁, d₁, hF₁⟩ := List.length_eq_three.mp h₁
  obtain ⟨p₂, v₂, d₂, hF₂⟩ := List.length_eq_three.mp h₂
  have e₁ := Spec.recordOf_of_fields l₁ p₁ v₁ d₁ hF₁
  have e₂ := Spec.recordOf_of_fields l₂ p₂ v₂ d₂ hF₂
  simp only [Spec.lineKey, hF₁, hF₂, List.getD_cons_zero, List.getD_cons_succ]
  by_cases s₁ : "/go.mod".toList <:+ v₁ <;> by_cases s₂ : "/go.mod".toList <:+ v₂
  · obtain ⟨t₁, rfl⟩ := s₁
    obtain ⟨t₂, rfl⟩ := s₂
    rw [e₁.1 t₁ rfl, e₂.1 t₂ rfl] at h
    simp only [Spec.recordKey, Prod.mk.injEq] at h
    rw [h.1, h.2.1]
  · obtain ⟨t₁, rfl⟩ := s₁
    rw [e₁.1 t₁ rfl, e₂.2 s₂] at h
    simp [Spec.recordKey] at h
  · obtain ⟨t₂, rfl⟩ := s₂
    rw [e₁.2 s₁, e₂.1 t₂ rfl] at h
    simp [Spec.recordKey] at h
  · rw [e₁.2 s₁, e₂.2 s₂] at h
    simp only [Spec.recordKey, Prod.mk.injEq] at h
    rw [h.1, h.2.1]

theorem Spec.recordKey_of_lineKey (l₁ l₂ : Str) (h₁ : Spec.isRecordLine l₁ = true)
    (h₂ : Spec.isRecordLine l₂ = true) (h : Spec.lineKey l₁ = Spec.lineKey l₂) :
    Spec.recordKey (Spec.recordOf l₁) = Spec.recordKey (Spec.recordOf l₂) := by
  simp only [Spec.isRecordLine, beq_iff_eq] at h₁ h₂
  obtain ⟨p₁, v₁, d₁, hF₁⟩ := List.length_eq_three.mp h₁
  obtain ⟨p₂, v₂, d₂, hF₂⟩ := List.length_eq_three.mp h₂
  have e₁ := Spec.recordOf_of_fields l₁ p₁ v₁ d₁ hF₁
  have e₂ := Spec.recordOf_of_fields l₂ p₂ v₂ d₂ hF₂
  simp only [Spec.lineKey, hF₁, hF₂, List.getD_cons_zero, List.getD_cons_succ,
    Prod.mk.injEq] at h
  obtain ⟨hp, hv⟩ := h
  subst hp hv
  by_cases s : "/go.mod".toList <:+ v₁
  · obtain ⟨t, rfl⟩ := s
    rw [e₁.1 t rfl, e₂.1 t rfl]
    rfl
  · rw [e₁.2 s, e₂.2 s]
    rfl

theorem List.nodup_map_of_nodup_map {α β γ : Type} (f : α → β) (g : α → γ) (l : List α)
    (hfg : ∀ x ∈ l, ∀ y ∈ l, g x = g y → f x = f y) (h : (l.map f).Nodup) :
    (l.map g).Nodup := by
  have hnd := List.Nodup.of_map _ h
  refine List.Nodup.map_on ?_ hnd
  intro x hx y hy hxy
  exact List.inj_on_of_nodup_map h hx hy (hfg x hx y hy hxy)

/-- Claim C7, as the code has it. `Parse` removes no duplicates: on a manifest
all of whose lines are shorter than 65536 bytes it returns exactly one record
for each three-field line, in the order of the lines, repeated lines included.
So no two records of the result agree on module path, version and target kind
exactly when no two three-field lines of the manifest have the same first two
fields. -/
theorem Parse_records_unique (text filename : Str) (hfit : bufio.fits text = true) :
    sumdb.Parse (fun _ => .ok ⟨text, none⟩) filename
        = .ok (((bufio.scanLines text).filter Spec.isRecordLine).map Spec.recordOf) ∧
      ((List.map Spec.recordKey
          (((bufio.scanLines text).filter Spec.isRecordLine).map Spec.recordOf)).Nodup
        ↔ (((bufio.scanLines text).filter Spec.isRecordLine).map Spec.lineKey).Nodup) := by
  refine ⟨sumdb.Parse_ok text filename hfit, ?_⟩
  rw [List.map_map]
  constructor
  · intro h
    exact List.nodup_map_of_nodup_map _ _ _
      (fun x hx y hy hxy => Spec.recordKey_of_lineKey x y (List.mem_filter.mp hx).2
        (List.mem_filter.mp hy).2 hxy) h
  · intro h
    exact List.nodup_map_of_nodup_map _ _ _
      (fun x hx y hy hxy => Spec.lineKey_of_recordKey x y (List.mem_filter.mp hx).2
        (List.mem_filter.mp hy).2 hxy) h

theorem Parse_records_unique_witness :
    sumdb.Parse (fun _ => .ok ⟨"a v1 h1:x\na v1/go.mod h1:y\nb v1 h1:z\n".toList, none⟩) []
        = .ok (((bufio.scanLines "a v1 h1:x\na v1/go.mod h1:y\nb v1 h1:z\n".toList).filter
            Spec.isRecordLine).map Spec.recordOf) ∧
      (List.map Spec.recordKey
          (((bufio.scanLines "a v1 h1:x\na v1/go.mod h1:y\nb v1 h1:z\n".toList).filter
            Spec.isRecordLine).map Spec.recordOf)).Nodup :=
  ⟨(Parse_records_unique "a v1 h1:x\na v1/go.mod h1:y\nb v1 h1:z\n".toList []
      (by decide)).1,
    (Parse_records_unique "a v1 h1:x\na v1/go.mod h1:y\nb v1 h1:z\n".toList []
      (by decide)).2.mpr (by decide)⟩

/-- Claim C7 as stated fails: a manifest that repeats a line yields two records
with the same module path, version and target kind. -/
theorem Parse_duplicate_records :
    sumdb.Parse (fun _ => .ok ⟨"a v1 h1:x\na v1 h1:x\n".toList, none⟩) []
        = .ok [⟨"a".toList, "v1".toList, "h1:x".toList, false⟩,
            ⟨"a".toList, "v1".toList, "h1:x".toList, false⟩] ∧
      ¬ (List.map Spec.recordKey [⟨"a".toList, "v1".toList, "h1:x".toList, false⟩,
            ⟨"a".toList, "v1".toList, "h1:x".toList, false⟩]).Nodup :=
  ⟨rfl, by decide⟩

/-! ### Cleaned paths -/

theorem Spec.isPlainSegment_iff (e : Str) :
    Spec.isPlainSegment e = true ↔
      e ≠ [] ∧ e ≠ ['.'] ∧ e ≠ ['.', '.'] ∧ filepath.Separator ∉ e := by
  simp [Spec.isPlainSegment, and_assoc]

theorem Spec.canon_nil (rooted : Bool) : Spec.Canon rooted [] :=
  ⟨[], [], rfl, by simp, by simp, by simp⟩

/-- One turn of the loop of `Clean` keeps the written elements in canonical order. -/
theorem filepath.cleanElem_canon (rooted : Bool) (out : List Str) (e : Str)
    (hout : Spec.Canon rooted out) (he : filepath.Separator ∉ e) :
    Spec.Canon rooted (filepath.cleanElem rooted out e) := by
  obtain ⟨ps, ds, rfl, hps, hds, hr⟩ := hout
  unfold filepath.cleanElem
  by_cases h1 : e = []
  · simpa [h1] using ⟨ps, ds, rfl, hps, hds, hr⟩
  by_cases h2 : e = ['.']
  · simpa [h2] using ⟨ps, ds, rfl, hps, hds, hr⟩
  by_cases h3 : e = ['.', '.']
  · subst h3
    simp only [h1, h2, if_false, if_true]
    cases ps with
    | nil =>
      cases ds with
      | nil =>
        cases rooted
        · exact ⟨[], [['.', '.']], rfl, by simp, by simp, by simp⟩
        · exact ⟨[], [], rfl, by simp, by simp, by simp⟩
      | cons d ds' =>
        have hd : d = ['.', '.'] := hds d (List.mem_cons_self _ _)
        subst hd
        cases rooted
        · exact ⟨[], ['.', '.'] :: ['.', '.'] :: ds', by simp, by simp,
            by simpa using hds, by simp⟩
        · exact absurd (hr rfl) (by simp)
    | cons p ps' =>
      have hp := (Spec.isPlainSegment_iff p).mp (hps p (List.mem_cons_self _ _))
      simp only [List.cons_append, ne_eq, hp.2.2.1, not_false_eq_true, if_true]
      exact ⟨ps', ds, rfl, fun x hx => hps x (List.mem_cons_of_mem _ hx), hds, hr⟩
  · simp only [h1, h2, h3, if_false]
    refine ⟨e :: ps, ds, rfl, ?_, hds, hr⟩
    intro x hx
    rcases List.mem_cons.mp hx with rfl | hx
    · exact (Spec.isPlainSegment_iff _).mpr ⟨h1, h2, h3, he⟩
    · exact hps x hx

theorem filepath.foldl_cleanElem_canon (rooted : Bool) (elems : List Str) (out : List Str)
    (hout : Spec.Canon rooted out) (he : ∀ e ∈ elems, filepath.Separator ∉ e) :
    Spec.Canon rooted (elems.foldl (filepath.cleanElem rooted) out) := by
  induction elems generalizing out with
  | nil => exact hout
  | cons e es ih =>
    exact ih _ (filepath.cleanElem_canon rooted out e hout (he e (List.mem_cons_self _ _)))
      (fun x hx => he x (List.mem_cons_of_mem _ hx))

theorem filepath.written_canon (path : Str) :
    Spec.Canon (filepath.rooted path) (filepath.written path) :=
  filepath.foldl_cleanElem_canon _ _ [] (Spec.canon_nil _) (List.not_mem_of_mem_splitOn _ _)

theorem filepath.written_no_sep (path : Str) :
    ∀ e ∈ (filepath.written path).reverse, filepath.Separator ∉ e := by
  obtain ⟨ps, ds, hout, hps, hds, -⟩ := filepath.written_canon path
  intro e he
  rw [hout] at he
  rcases List.mem_append.mp (List.mem_reverse.mp he) with h | h
  · exact ((Spec.isPlainSegment_iff e).mp (hps e h)).2.2.2
  · rw [hds e h]; decide

theorem filepath.written_ne_nil_mem (path : Str) :
    ∀ e ∈ filepath.written path, e ≠ [] := by
  obtain ⟨ps, ds, hout, hps, hds, -⟩ := filepath.written_canon path
  intro e he
  rw [hout] at he
  rcases List.mem_append.mp he with h | h
  · exact ((Spec.isPlainSegment_iff e).mp (hps e h)).1
  · rw [hds e h]; simp

theorem filepath.Clean_of_ne_nil (path : Str) (h : path ≠ []) :
    filepath.Clean path =
      if filepath.rooted path = true then
        filepath.Separator :: strings.Join (filepath.written path).reverse [filepath.Separator]
      else if filepath.written path = [] then ['.']
      else strings.Join (filepath.written path).reverse [filepath.Separator] := by
  simp only [filepath.Clean, h, if_false]

/-- The segments of a cleaned path are the written elements, after an empty segment when the path is rooted. -/
theorem filepath.Clean_splitOn (path : Str) (h : path ≠ []) (hw : filepath.written path ≠ []) :
    (filepath.Clean path).splitOn filepath.Separator
      = (if filepath.rooted path = true then [[]] else []) ++ (filepath.written path).reverse := by
  have hne : (filepath.written path).reverse ≠ [] := fun hc => hw (List.reverse_eq_nil_iff.mp hc)
  have hsplit := List.splitOn_intercalate _ filepath.Separator (filepath.written_no_sep path) hne
  rw [filepath.Clean_of_ne_nil path h]
  by_cases hr : filepath.rooted path = true
  · simp only [hr, if_true, List.singleton_append]
    rw [List.splitOn, List.splitOnP_cons]
    simp only [beq_self_eq_true, if_true]
    congr 1
  · simp only [hr, hw, Bool.false_eq_true, if_false, List.nil_append]
    exact hsplit

/-- A cleaned path is never empty. -/
theorem filepath.Clean_ne_nil (path : Str) : filepath.Clean path ≠ [] := by
  by_cases h : path = []
  · simp [filepath.Clean, h]
  · by_cases hw : filepath.written path = []
    · rw [filepath.Clean_of_ne_nil path h]
      by_cases hr : filepath.rooted path = true <;> simp [hr, hw]
    · intro hc
      have hsp := filepath.Clean_splitOn path h hw
      rw [hc] at hsp
      have hmem : ([] : Str) ∈ (if filepath.rooted path = true then [[]] else [])
          ++ (filepath.written path).reverse := by
        rw [← hsp]; decide
      by_cases hr : filepath.rooted path = true
      · rw [filepath.Clean_of_ne_nil path h] at hc
        simp [hr] at hc
      · simp only [hr, Bool.false_eq_true, if_false, List.nil_append, List.mem_reverse] at hmem
        exact filepath.written_ne_nil_mem path [] hmem rfl

theorem List.tail_plain_of_canon (dd pp A B : List Str) (x : Str)
    (hdd : ∀ e ∈ dd, e = ['.', '.']) (hpp : ∀ e ∈ pp, Spec.isPlainSegment e = true)
    (h : dd ++ pp = A ++ x :: B) (hx : x ≠ ['.', '.']) :
    ∀ y ∈ B, Spec.isPlainSegment y = true := by
  rcases List.append_eq_append_iff.mp h with ⟨a', -, h2⟩ | ⟨c', h1, h2⟩
  · intro y hy
    exact hpp y (by rw [h2]; simp [hy])
  · cases c' with
    | nil =>
      intro y hy
      exact hpp y (by rw [List.nil_append] at h2; rw [← h2]; simp [hy])
    | cons c cs =>
      simp only [List.cons_append, List.cons.injEq] at h2
      exact absurd (hdd x (by rw [h1, h2.1]; simp)) hx

/-- In a cleaned path other than the root, every segment after a segment that is not `..` is plain. -/
theorem filepath.Clean_tail_plain (path : Str) (A B : List Str) (x : Str)
    (hroot : filepath.Clean path ≠ [filepath.Separator])
    (h : (filepath.Clean path).splitOn filepath.Separator = A ++ x :: B)
    (hx : x ≠ ['.', '.']) :
    ∀ y ∈ B, Spec.isPlainSegment y = true := by
  have hdot : filepath.Clean path = ['.'] → ∀ y ∈ B, Spec.isPlainSegment y = true := by
    intro hC y hy
    rw [hC] at h
    have h' : [(['.'] : Str)] = A ++ x :: B := by rw [← h]; decide
    have hlen := congrArg List.length h'
    simp only [List.length_append, List.length_cons, List.length_singleton,
      List.length_nil] at hlen
    have : B = [] := List.length_eq_zero.mp (by omega)
    rw [this] at hy; simp at hy
  by_cases hp : path = []
  · exact hdot (by simp [filepath.Clean, hp])
  · by_cases hw : filepath.written path = []
    · by_cases hr : filepath.rooted path = true
      · exfalso
        apply hroot
        rw [filepath.Clean_of_ne_nil path hp]
        simp [hr, hw, strings.Join, List.intercalate]
      · exact hdot (by rw [filepath.Clean_of_ne_nil path hp]; simp [hr, hw])
    · rw [filepath.Clean_splitOn path hp hw] at h
      obtain ⟨ps, ds, hout, hps, hds, hrd⟩ := filepath.written_canon path
      rw [hout] at h
      by_cases hr : filepath.rooted path = true
      · have hds0 := hrd hr
        subst hds0
        simp only [hr, if_true, List.append_nil, List.singleton_append] at h
        cases A with
        | nil =>
          simp only [List.nil_append, List.cons.injEq] at h
          intro y hy
          exact hps y (List.mem_reverse.mp (by rw [h.2]; exact hy))
        | cons a A' =>
          simp only [List.cons_append, List.cons.injEq] at h
          intro y hy
          exact hps y (List.mem_reverse.mp (by rw [h.2]; simp [hy]))
      · simp only [hr, Bool.false_eq_true, if_false, List.nil_append, List.reverse_append] at h
        exact List.tail_plain_of_canon ds.reverse ps.reverse A B x
          (fun e he => hds e (List.mem_reverse.mp he))
          (fun e he => hps e (List.mem_reverse.mp he)) h hx

theorem filepath.Join_eq_Clean (elem : List Str) :
    filepath.Join elem = [] ∨ ∃ path, filepath.Join elem = filepath.Clean path := by
  unfold filepath.Join
  split
  · exact Or.inl rfl
  · exact Or.inr ⟨_, rfl⟩

theorem filepath.Join_pair (dir name : Str) (h : dir ≠ []) :
    filepath.Join [dir, name] = filepath.Clean (dir ++ filepath.Separator :: name) := by
  cases dir with
  | nil => exact absurd rfl h
  | cons c cs => simp [filepath.Join, strings.Join, List.intercalate]

theorem filepath.written_append (dir name : Str) (h : dir ≠ []) :
    filepath.written (dir ++ filepath.Separator :: name)
      = (name.splitOn filepath.Separator).foldl (filepath.cleanElem (filepath.rooted dir))
          (filepath.written dir) := by
  have hr : filepath.rooted (dir ++ filepath.Separator :: name) = filepath.rooted dir := by
    cases dir with
    | nil => exact absurd rfl h
    | cons c cs => rfl
  have hs : (dir ++ filepath.Separator :: name).splitOn filepath.Separator
      = dir.splitOn filepath.Separator ++ name.splitOn filepath.Separator :=
    List.splitOnP_append_sep _ _ _ _ (by simp)
  rw [filepath.written, hr, hs, List.foldl_append, filepath.written]

theorem filepath.written_etc_passwd (dir : Str) (h : dir ≠ []) :
    filepath.written (dir ++ filepath.Separator :: "../../etc/passwd".toList)
      = "passwd".toList :: "etc".toList ::
          filepath.cleanElem (filepath.rooted dir)
            (filepath.cleanElem (filepath.rooted dir) (filepath.written dir) ['.', '.'])
            ['.', '.'] := by
  rw [filepath.written_append dir _ h]
  have : "../../etc/passwd".toList.splitOn filepath.Separator
      = [['.', '.'], ['.', '.'], "etc".toList, "passwd".toList] := by decide
  rw [this]
  simp [filepath.cleanElem]

theorem filepath.foldl_cleanElem_dotdots (dds acc : List Str)
    (hdds : ∀ e ∈ dds, e = ['.', '.']) (hacc : ∀ e ∈ acc, e = ['.', '.']) :
    dds.foldl (filepath.cleanElem false) acc = dds.reverse ++ acc := by
  induction dds generalizing acc with
  | nil => rfl
  | cons d ds ih =>
    have hd := hdds d (List.mem_cons_self _ _)
    subst hd
    have hstep : filepath.cleanElem false acc ['.', '.'] = ['.', '.'] :: acc := by
      cases acc with
      | nil => simp [filepath.cleanElem]
      | cons a as =>
        have := hacc a (List.mem_cons_self _ _)
        subst this
        simp [filepath.cleanElem]
    have hacc' : ∀ e ∈ ['.', '.'] :: acc, e = ['.', '.'] := by
      intro e he
      rcases List.mem_cons.mp he with h | h
      · exact h
      · exact hacc e h
    rw [List.foldl_cons, hstep, ih _ (fun e he => hdds e (List.mem_cons_of_mem _ he)) hacc']
    simp

theorem filepath.foldl_cleanElem_plain (r : Bool) (pls acc : List Str)
    (hpls : ∀ e ∈ pls, Spec.isPlainSegment e = true) :
    pls.foldl (filepath.cleanElem r) acc = pls.reverse ++ acc := by
  induction pls generalizing acc with
  | nil => rfl
  | cons p ps ih =>
    have hp := (Spec.isPlainSegment_iff p).mp (hpls p (List.mem_cons_self _ _))
    have hstep : filepath.cleanElem r acc p = p :: acc := by
      simp [filepath.cleanElem, hp.1, hp.2.1, hp.2.2.1]
    rw [List.foldl_cons, hstep, ih _ (fun e he => hpls e (List.mem_cons_of_mem _ he))]
    simp

theorem filepath.foldl_cleanElem_written (path : Str) :
    (filepath.written path).reverse.foldl (filepath.cleanElem (filepath.rooted path)) []
      = filepath.written path := by
  obtain ⟨ps, ds, hout, hps, hds, hr⟩ := filepath.written_canon path
  rw [hout, List.reverse_append, List.foldl_append]
  cases hroot : filepath.rooted path with
  | true =>
    have := hr hroot
    subst this
    simp only [List.reverse_nil, List.foldl_nil, List.append_nil]
    rw [filepath.foldl_cleanElem_plain true ps.reverse []
      (fun e he => hps e (List.mem_reverse.mp he))]
    simp
  | false =>
    rw [filepath.foldl_cleanElem_dotdots ds.reverse [] (fun e he => hds e (List.mem_reverse.mp he))
      (by simp),
      filepath.foldl_cleanElem_plain false ps.reverse _
        (fun e he => hps e (List.mem_reverse.mp he))]
    simp

/-- Cleaning a cleaned path changes nothing. -/
theorem filepath.Clean_idem (path : Str) :
    filepath.Clean (filepath.Clean path) = filepath.Clean path := by
  by_cases hp : path = []
  · subst hp; decide
  · have hC := filepath.Clean_of_ne_nil path hp
    by_cases hw : filepath.written path = []
    · by_cases hr : filepath.rooted path = true
      · simp only [hr, hw, if_true, strings.Join] at hC
        rw [hC]; decide
      · simp only [hr, hw, Bool.false_eq_true, if_false, if_true] at hC
        rw [hC]; decide
    · have hne := filepath.Clean_ne_nil path
      have hsp := filepath.Clean_splitOn path hp hw
      have hroot : filepath.rooted (filepath.Clean path) = filepath.rooted path := by
        by_cases hr : filepath.rooted path = true
        · simp only [hr, if_true] at hC
          rw [hC, hr]
          simp [filepath.rooted]
        · have hr' : filepath.rooted path = false := by simpa using hr
          rw [hr']
          simp only [hr', Bool.false_eq_true, if_false, List.nil_append] at hsp
          cases hcp : filepath.Clean path with
          | nil => exact absurd hcp hne
          | cons c cs =>
            by_cases hc : c = filepath.Separator
            · exfalso
              rw [hcp, hc, List.splitOn, List.splitOnP_cons] at hsp
              simp only [beq_self_eq_true, if_true] at hsp
              have hmem : ([] : Str) ∈ (filepath.written path).reverse := by
                rw [← hsp]; exact List.mem_cons_self _ _
              exact filepath.written_ne_nil_mem path [] (List.mem_reverse.mp hmem) rfl
            · simp [filepath.rooted, hc]
      have hwr : filepath.written (filepath.Clean path) = filepath.written path := by
        rw [filepath.written, hroot, hsp, List.foldl_append]
        have hpre : List.foldl (filepath.cleanElem (filepath.rooted path)) []
            (if filepath.rooted path = true then [[]] else []) = [] := by
          by_cases hr : filepath.rooted path = true <;> simp [hr, filepath.cleanElem]
        rw [hpre]
        exact filepath.foldl_cleanElem_written path
      rw [filepath.Clean_of_ne_nil _ hne, hroot, hwr, ← hC]

/-- The last segment of `filepath.Join(moduleDir, "extract")` is `extract`. -/
theorem filepath.Join_extract_last (moduleDir : Str) :
    ((filepath.Clean (filepath.Join [moduleDir, "extract".toList])).splitOn
      filepath.Separator).getLast? = some "extract".toList := by
  by_cases hm : moduleDir = []
  · subst hm; decide
  · rw [filepath.Join_pair _ _ hm, filepath.Clean_idem]
    have hw : filepath.written (moduleDir ++ filepath.Separator :: "extract".toList)
        = "extract".toList :: filepath.written moduleDir := by
      rw [filepath.written_append _ _ hm]
      have : "extract".toList.splitOn filepath.Separator = ["extract".toList] := by decide
      rw [this]
      simp [filepath.cleanElem]
    rw [filepath.Clean_splitOn _ (by simp) (by rw [hw]; simp), hw]
    simp

/-! ### The extractor -/

/-- Under a destination that does not end in `..`, a path that passes the check lies inside. -/
theorem module.pathAllowed_inside (destDir name : Str)
    (hdest : ((filepath.Clean destDir).splitOn filepath.Separator).getLast? ≠ some ['.', '.'])
    (hpass : module.pathAllowed destDir name = true) :
    Spec.inside destDir (filepath.Join [destDir, name]) = true := by
  have hpre := (strings.HasPrefix_iff _ _).mp hpass
  obtain ⟨tail, htail⟩ := hpre
  simp only [Spec.inside, Bool.and_eq_true]
  refine ⟨hpass, ?_⟩
  rw [← htail, List.drop_left]
  rw [List.all_eq_true]
  obtain hnil | ⟨path, hpath⟩ := filepath.Join_eq_Clean [destDir, name]
  · rw [hnil] at htail
    simp at htail
  · have hsplit : (filepath.Clean path).splitOn filepath.Separator
        = (filepath.Clean destDir).splitOn filepath.Separator
          ++ tail.splitOn filepath.Separator := by
      rw [← hpath, ← htail, List.append_assoc, List.singleton_append]
      exact List.splitOnP_append_sep _ _ _ _ (by simp)
    have hne : (filepath.Clean destDir).splitOn filepath.Separator ≠ [] :=
      List.splitOnP_ne_nil _ _
    obtain ⟨x, hx⟩ : ∃ x, ((filepath.Clean destDir).splitOn filepath.Separator).getLast? = some x := by
      cases h : ((filepath.Clean destDir).splitOn filepath.Separator).getLast? with
      | none => exact absurd (List.getLast?_eq_none_iff.mp h) hne
      | some x => exact ⟨x, rfl⟩
    obtain ⟨A, hA⟩ := List.getLast?_eq_some_iff.mp hx
    have hxdd : x ≠ ['.', '.'] := by
      intro hc; apply hdest; rw [hx, hc]
    have hroot : filepath.Clean path ≠ [filepath.Separator] := by
      rw [← hpath, ← htail]
      intro hc
      have hlen := congrArg List.length hc
      simp only [List.length_append, List.length_singleton] at hlen
      have : (filepath.Clean destDir).length = 0 := by omega
      exact filepath.Clean_ne_nil destDir (List.length_eq_zero.mp this)
    rw [hA, List.append_assoc, List.singleton_append] at hsplit
    exact filepath.Clean_tail_plain path A _ x hroot hsplit hxdd

/-- Under a destination that does not end in `..` and is not `/etc`, the entry `../../etc/passwd` fails the check. -/
theorem module.pathAllowed_etc_passwd (destDir : Str)
    (hdest : ((filepath.Clean destDir).splitOn filepath.Separator).getLast? ≠ some ['.', '.'])
    (hetc : filepath.Clean destDir ≠ "/etc".toList) :
    module.pathAllowed destDir "../../etc/passwd".toList = false := by
  cases hpass : module.pathAllowed destDir "../../etc/passwd".toList with
  | false => rfl
  | true =>
    exfalso
    by_cases hd : destDir = []
    · subst hd
      revert hpass
      decide
    · obtain ⟨tail, htail⟩ := (strings.HasPrefix_iff _ _).mp hpass
      rw [filepath.Join_pair _ _ hd, List.append_assoc, List.singleton_append] at htail
      have hwX := filepath.written_etc_passwd destDir hd
      have hXne : destDir ++ filepath.Separator :: "../../etc/passwd".toList ≠ [] := by simp
      have hrX : filepath.rooted (destDir ++ filepath.Separator :: "../../etc/passwd".toList)
          = filepath.rooted destDir := by
        cases destDir with
        | nil => exact absurd rfl hd
        | cons c cs => rfl
      have hF := filepath.Clean_splitOn _ hXne (by rw [hwX]; simp)
      rw [hrX, hwX, ← htail] at hF
      have hsp : (filepath.Clean destDir ++ filepath.Separator :: tail).splitOn filepath.Separator
          = (filepath.Clean destDir).splitOn filepath.Separator
            ++ tail.splitOn filepath.Separator :=
        List.splitOnP_append_sep _ _ _ _ (by simp)
      rw [hsp] at hF
      obtain ⟨t, ts, hT⟩ : ∃ t ts, tail.splitOn filepath.Separator = t :: ts := by
        cases hts : tail.splitOn filepath.Separator with
        | nil => exact absurd hts (List.splitOnP_ne_nil _ _)
        | cons t ts => exact ⟨t, ts, rfl⟩
      rw [hT] at hF
      obtain ⟨ps, ds, hout, hps, hds, hr⟩ := filepath.written_canon destDir
      by_cases hw : filepath.written destDir = []
      · have hC := filepath.Clean_of_ne_nil destDir hd
        rw [hw] at hF
        by_cases hroot : filepath.rooted destDir = true
        · simp only [hroot, hw, if_true, strings.Join] at hC
          rw [hC, hroot] at hF
          revert hF
          simp [filepath.cleanElem, List.splitOn, List.splitOnP_cons, List.intercalate,
            filepath.Separator]
        · simp only [hroot, hw, Bool.false_eq_true, if_false, if_true] at hC
          have hroot' : filepath.rooted destDir = false := by simpa using hroot
          rw [hC, hroot'] at hF
          revert hF
          simp [filepath.cleanElem, List.splitOn, List.splitOnP_cons, filepath.Separator]
      · have hP := filepath.Clean_splitOn destDir hd hw
        rw [hP, List.append_assoc] at hF
        have hF' := List.append_cancel_left hF
        rw [hP] at hdest
        cases ps with
        | nil =>
          exfalso
          apply hdest
          rw [hout] at hw ⊢
          cases ds with
          | nil => exact absurd rfl hw
          | cons d ds' =>
            have := hds d (List.mem_cons_self _ _)
            subst this
            simp
        | cons p ps' =>
          have hp := (Spec.isPlainSegment_iff p).mp (hps p (List.mem_cons_self _ _))
          rw [hout] at hF'
          have hpop : filepath.cleanElem (filepath.rooted destDir) (p :: ps' ++ ds) ['.', '.']
              = ps' ++ ds := by
            simp [filepath.cleanElem, hp.2.2.1]
          rw [hpop] at hF'
          cases ps' with
          | cons q ps'' =>
            have hq := (Spec.isPlainSegment_iff q).mp
              (hps q (List.mem_cons_of_mem _ (List.mem_cons_self _ _)))
            have hpop2 : filepath.cleanElem (filepath.rooted destDir) (q :: ps'' ++ ds) ['.', '.']
                = ps'' ++ ds := by
              simp [filepath.cleanElem, hq.2.2.1]
            rw [hpop2] at hF'
            have hlen := congrArg List.length hF'
            simp at hlen
          | nil =>
            cases ds with
            | nil =>
              by_cases hroot : filepath.rooted destDir = true
              · simp [filepath.cleanElem, hroot] at hF'
                apply hetc
                rw [filepath.Clean_of_ne_nil destDir hd, hout]
                simp [hroot, strings.Join, List.intercalate, hF'.1, filepath.Separator]
              · simp [filepath.cleanElem, hroot] at hF'
                exact hp.2.2.1 hF'.1
            | cons d ds' =>
              have hdd := hds d (List.mem_cons_self _ _)
              subst hdd
              have hroot : filepath.rooted destDir = false := by
                cases hr' : filepath.rooted destDir with
                | false => rfl
                | true => exact absurd (hr hr') (by simp)
              simp [filepath.cleanElem, hroot] at hF'
              exact hp.2.2.1 hF'.1

/-- The side condition of `module.pathAllowed_inside` cannot be dropped: for
the destination `..`, which `FetchAndVerify` never passes, the entry
`../../etc/passwd` passes the check though its joined path
`../../../etc/passwd` is not inside the destination. -/
theorem module.pathAllowed_parent_destination :
    module.pathAllowed "..".toList "../../etc/passwd".toList = true ∧
      filepath.Join ["..".toList, "../../etc/passwd".toList] = "../../../etc/passwd".toList ∧
      Spec.inside "..".toList (filepath.Join ["..".toList, "../../etc/passwd".toList]) = false :=
  ⟨by decide, by decide, by decide⟩

/-- An entry that fails the check ends the loop with an error, and the calls are those of the entries before it. -/
theorem module.extractFiles_reject (destDir : Str) (before rest : List module.ZipFile)
    (f : module.ZipFile) (hf : module.pathAllowed destDir f.Name = false) :
    (module.extractFiles destDir (before ++ f :: rest)).2 ≠ none ∧
      (module.extractFiles destDir (before ++ f :: rest)).1
        = (module.extractFiles destDir before).1 := by
  induction before with
  | nil => simp [module.extractFiles, hf]
  | cons g gs ih =>
    simp only [List.cons_append, module.extractFiles]
    by_cases hg : module.pathAllowed destDir g.Name = true
    · simp only [hg, Bool.not_true, Bool.false_eq_true, if_false]
      by_cases hd : g.IsDir = true
      · simp only [hd, if_true]
        exact ⟨ih.1, by rw [← ih.2]; rfl⟩
      · simp only [hd, Bool.false_eq_true, if_false]
        cases g.mkdirErr <;> cases g.openFileErr <;> cases g.openErr <;> cases g.copyErr <;>
          simp [ih.1, ih.2]
    · simp [hg]

/-- Entries that are extracted without a failing call contribute their calls and the loop goes on. -/
theorem module.extractFiles_clean (destDir : Str) (before rest : List module.ZipFile)
    (h : ∀ g ∈ before, Spec.extractsCleanly destDir g = true) :
    module.extractFiles destDir (before ++ rest)
      = (before.flatMap (Spec.entryCalls destDir) ++ (module.extractFiles destDir rest).1,
          (module.extractFiles destDir rest).2) := by
  induction before with
  | nil => simp
  | cons g gs ih =>
    have hg := h g (List.mem_cons_self _ _)
    have ih' := ih (fun x hx => h x (List.mem_cons_of_mem _ hx))
    simp only [Spec.extractsCleanly, Bool.and_eq_true, Bool.or_eq_true,
      Option.isNone_iff_eq_none] at hg
    obtain ⟨hpass, hrest⟩ := hg
    simp only [List.cons_append, module.extractFiles, hpass, Bool.not_true, Bool.false_eq_true,
      if_false, List.flatMap_cons, Spec.entryCalls]
    by_cases hd : g.IsDir = true
    · simp [hd, ih']
    · rcases hrest with hd' | ⟨⟨⟨h1, h2⟩, h3⟩, h4⟩
      · exact absurd hd' hd
      · simp [hd, h1, h2, h3, h4, ih']

theorem module.extractZip_ok (files : List module.ZipFile) (zipPath destDir : Str) :
    module.extractZip (fun _ => .ok files) zipPath destDir
      = module.extractFiles destDir files := rfl

/-- Claim C10, as the code has it. When an entry fails the containment check,
`extractZip` returns an error and its file system calls are those of
extracting the entries before that entry alone: none is made for the entry
or for a later one. When moreover every entry before it passes the check and
is extracted without a failing call, the calls are exactly the calls of those
entries, in archive order, and the error is the invalid-path error. -/
theorem extractZip_stops_at_offending_entry (destDir zipPath : Str)
    (before rest : List module.ZipFile) (f : module.ZipFile)
    (hf : module.pathAllowed destDir f.Name = false) :
    (module.extractZip (fun _ => .ok (before ++ f :: rest)) zipPath destDir).2 ≠ none ∧
      (module.extractZip (fun _ => .ok (before ++ f :: rest)) zipPath destDir).1
        = (module.extractZip (fun _ => .ok before) zipPath destDir).1 ∧
      ((∀ g ∈ before, Spec.extractsCleanly destDir g = true) →
        module.extractZip (fun _ => .ok (before ++ f :: rest)) zipPath destDir
          = (before.flatMap (Spec.entryCalls destDir),
              some (.errorf ("invalid file path: ".toList
                ++ filepath.Join [destDir, f.Name])))) := by
  simp only [module.extractZip_ok]
  have hrej := module.extractFiles_reject destDir before rest f hf
  refine ⟨hrej.1, hrej.2, fun hclean => ?_⟩
  rw [module.extractFiles_clean destDir before (f :: rest) hclean]
  simp [module.extractFiles, hf]

theorem extractZip_stops_at_offending_entry_witness :
    module.extractZip (fun _ => .ok ([Example.file "pkg/a.go".toList, Example.file "pkg/b.go".toList]
        ++ Example.file "../x".toList :: [Example.file "pkg/c.go".toList])) "a.zip".toList
        "/d".toList
      = (List.flatMap [Example.file "pkg/a.go".toList, Example.file "pkg/b.go".toList]
          (Spec.entryCalls "/d".toList),
        some (.errorf ("invalid file path: ".toList
          ++ filepath.Join ["/d".toList, (Example.file "../x".toList).Name]))) :=
  (extractZip_stops_at_offending_entry "/d".toList "a.zip".toList
    [Example.file "pkg/a.go".toList, Example.file "pkg/b.go".toList]
    [Example.file "pkg/c.go".toList] (Example.file "../x".toList) (by decide)).2.2 (by decide)

/-- Claim C10 as stated fails: in the archive `a`, `a/f`, `b`, `../x` the first
entry that fails the check is `../x`, yet the directory for `a/f` cannot be
created (`a` is a file), `extractZip` returns that error, and `b`, which comes
before `../x`, is never processed. -/
theorem extractZip_earlier_failure_skips_entries :
    module.pathAllowed "/d".toList "a".toList = true ∧
      module.pathAllowed "/d".toList "a/f".toList = true ∧
      module.pathAllowed "/d".toList "b".toList = true ∧
      module.pathAllowed "/d".toList "../x".toList = false ∧
      module.extractZip (fun _ => .ok [Example.file "a".toList,
          Example.blockedFile "a/f".toList (.lib "not a directory".toList),
          Example.file "b".toList, Example.file "../x".toList]) "a.zip".toList "/d".toList
        = ([module.FsCall.MkdirAll "/d".toList, module.FsCall.OpenFile "/d/a".toList 420,
            module.FsCall.Copy "/d/a".toList "a".toList, module.FsCall.MkdirAll "/d/a".toList],
          some (.lib "not a directory".toList)) ∧
      (module.extractZip (fun _ => .ok [Example.file "a".toList,
          Example.blockedFile "a/f".toList (.lib "not a directory".toList),
          Example.file "b".toList, Example.file "../x".toList]) "a.zip".toList "/d".toList).1
        ≠ List.flatMap [Example.file "a".toList,
            Example.blockedFile "a/f".toList (.lib "not a directory".toList),
            Example.file "b".toList] (Spec.entryCalls "/d".toList) :=
  ⟨by decide, by decide, by decide, by decide, by decide, by decide⟩

/-! ### The verifier -/

theorem Spec.unwrap_wrap (msg : Str) (cause : GoError) :
    Spec.unwrap (.wrap msg cause) = some cause := rfl

theorem module.mismatchMessage_infix (path version expected hash : Str) :
    expected <:+: module.mismatchMessage path version expected hash ∧
      hash <:+: module.mismatchMessage path version expected hash := by
  unfold module.mismatchMessage
  constructor
  · exact ⟨"checksum mismatch for ".toList ++ path ++ "@".toList ++ version
      ++ ":\nexpected: ".toList, "\nactual: ".toList ++ hash, by simp⟩
  · exact ⟨"checksum mismatch for ".toList ++ path ++ "@".toList ++ version
      ++ ":\nexpected: ".toList ++ expected ++ "\nactual: ".toList, [], by simp⟩

/-- Claim C4. For a record that is not a `go.mod` record, the error value
`FetchAndVerify` returns expresses the outcome the specification maps the
component steps to: `nil` when they yield a digest equal to `expectedChecksum`,
an error whose message holds `expectedChecksum` and the digest when they yield
another digest, and the cause of the failing step, as it is or wrapped,
when a step fails. In particular, when the steps yield a digest `h` the call
returns `nil` exactly when `h = expectedChecksum`, and otherwise the error
with the message `mismatchMessage`. -/
theorem FetchAndVerify_outcome_mapping (f : module.Fetcher) (w : module.World)
    (path version expectedChecksum : Str) :
    Spec.expresses (f.FetchAndVerify w path version expectedChecksum false).2
        (Spec.outcome expectedChecksum (Spec.pipeline f w path version)) = true ∧
      ∀ h, Spec.pipeline f w path version = .ok h →
        ((f.FetchAndVerify w path version expectedChecksum false).2 = none
            ↔ h = expectedChecksum) ∧
        (h ≠ expectedChecksum →
          (f.FetchAndVerify w path version expectedChecksum false).2
            = some (.errorf (module.mismatchMessage path version expectedChecksum h))) := by
  have key : Spec.expresses (f.FetchAndVerify w path version expectedChecksum false).2
        (Spec.outcome expectedChecksum (Spec.pipeline f w path version)) = true ∧
      ∀ h, Spec.pipeline f w path version = .ok h →
        (f.FetchAndVerify w path version expectedChecksum false).2
          = if h = expectedChecksum then none
            else some (.errorf (module.mismatchMessage path version expectedChecksum h)) := by
    simp only [module.Fetcher.FetchAndVerify, Spec.pipeline, Bool.false_eq_true, if_false,
      bind, Except.bind, pure, Except.pure, throw, throwThe, MonadExceptOf.throw]
    cases h1 : w.MkdirAll (filepath.Join [f.cacheDir, path ++ "@".toList ++ version]) with
    | some err => simp [Spec.step, Spec.outcome, Spec.expresses, Spec.unwrap_wrap]
    | none =>
      simp only [Spec.step]
      cases h2 : module.archiveURL path version with
      | error err => simp [Spec.outcome, Spec.expresses, Spec.unwrap_wrap]
      | ok url =>
        simp only []
        cases h3 : w.Get url with
        | error err => simp [Spec.outcome, Spec.expresses, Spec.unwrap_wrap]
        | ok resp =>
          simp only []
          by_cases h4 : resp.StatusCode = 200
          · simp only [h4, ne_eq, not_true_eq_false, if_false]
            cases h5 : w.Create (filepath.Join [filepath.Join [f.cacheDir,
                path ++ "@".toList ++ version], version ++ ".zip".toList]) with
            | some err => simp [Spec.outcome, Spec.expresses, Spec.unwrap_wrap]
            | none =>
              simp only []
              cases h6 : w.Copy (filepath.Join [filepath.Join [f.cacheDir,
                  path ++ "@".toList ++ version], version ++ ".zip".toList]) resp.Body with
              | some err => simp [Spec.outcome, Spec.expresses, Spec.unwrap_wrap]
              | none =>
                simp only []
                cases h7 : w.MkdirAll (filepath.Join [filepath.Join [f.cacheDir,
                    path ++ "@".toList ++ version], "extract".toList]) with
                | some err => simp [Spec.outcome, Spec.expresses, Spec.unwrap_wrap]
                | none =>
                  simp only []
                  cases h8 : (module.extractZip w.OpenReader
                      (filepath.Join [filepath.Join [f.cacheDir,
                        path ++ "@".toList ++ version], version ++ ".zip".toList])
                      (filepath.Join [filepath.Join [f.cacheDir,
                        path ++ "@".toList ++ version], "extract".toList])).2 with
                  | some err => simp [Spec.outcome, Spec.expresses, Spec.unwrap_wrap]
                  | none =>
                    simp only []
                    cases h9 : w.ReadDir (filepath.Join [filepath.Join [f.cacheDir,
                        path ++ "@".toList ++ version], "extract".toList]) with
                    | error err => simp [Spec.outcome, Spec.expresses, Spec.unwrap_wrap]
                    | ok entries =>
                      simp only []
                      match entries with
                      | [] => simp [Spec.outcome, Spec.expresses, Spec.unwrap_wrap]
                      | _ :: _ :: _ => simp [Spec.outcome, Spec.expresses, Spec.unwrap_wrap]
                      | [root] =>
                        cases hd : root.IsDir with
                        | false => simp [hd, Spec.outcome, Spec.expresses, Spec.unwrap_wrap]
                        | true =>
                          simp only [List.length_singleton, ne_eq, not_true_eq_false,
                            decide_False, List.map_cons, List.map_nil, List.getD_cons_zero, hd,
                            Bool.not_true, Bool.or_self, Bool.false_eq_true, if_false, if_true]
                          cases h10 : w.HashDir (filepath.Join [filepath.Join
                              [filepath.Join [f.cacheDir, path ++ "@".toList ++ version],
                                "extract".toList], root.Name])
                              (path ++ "@".toList ++ version) with
                          | error err => simp [Spec.outcome, Spec.expresses, Spec.unwrap_wrap]
                          | ok hash =>
                            by_cases heq : hash = expectedChecksum
                            · simp [heq, Spec.outcome, Spec.expresses]
                            · have hinf := module.mismatchMessage_infix path version
                                expectedChecksum hash
                              simp [heq, Spec.outcome, Spec.expresses, hinf.1, hinf.2]
          · simp [h4, Spec.outcome, Spec.expresses, Spec.unwrap_wrap]
  refine ⟨key.1, fun h hh => ?_⟩
  have := key.2 h hh
  rw [this]
  by_cases heq : h = expectedChecksum
  · simp [heq]
  · simp [heq]

theorem FetchAndVerify_outcome_mapping_witness :
    Spec.expresses (Example.fetcher.FetchAndVerify (Example.world 200 "h1:BBBB".toList)
        "example.com/pkg".toList "v1.0.0".toList "h1:AAAA".toList false).2
      (Spec.outcome "h1:AAAA".toList
        (Spec.pipeline Example.fetcher (Example.world 200 "h1:BBBB".toList)
          "example.com/pkg".toList "v1.0.0".toList)) = true :=
  (FetchAndVerify_outcome_mapping Example.fetcher (Example.world 200 "h1:BBBB".toList)
    "example.com/pkg".toList "v1.0.0".toList "h1:AAAA".toList).1

/-- The calls of `FetchAndVerify` hold at most one `http.Get`, right after the creation of the module directory, for the derived URL. -/
theorem module.FetchAndVerify_calls (f : module.Fetcher) (w : module.World)
    (path version expectedChecksum : Str) :
    (f.FetchAndVerify w path version expectedChecksum false).1
        = [module.Call.MkdirAll (filepath.Join [f.cacheDir, path ++ "@".toList ++ version])] ∨
      ∃ url rest, module.archiveURL path version = .ok url ∧
        (f.FetchAndVerify w path version expectedChecksum false).1
          = module.Call.MkdirAll (filepath.Join [f.cacheDir, path ++ "@".toList ++ version])
            :: module.Call.Get url :: rest ∧
        ∀ u, module.Call.Get u ∉ rest := by
  unfold module.Fetcher.FetchAndVerify
  simp only [Bool.false_eq_true, if_false]
  cases h1 : w.MkdirAll (filepath.Join [f.cacheDir, path ++ "@".toList ++ version]) with
  | some err => exact Or.inl rfl
  | none =>
    cases h2 : module.archiveURL path version with
    | error err => exact Or.inl rfl
    | ok url =>
      refine Or.inr ⟨url, ?_⟩
      simp only [List.singleton_append, List.cons_append, List.nil_append, Except.ok.injEq,
        true_and]
      repeat' split
      all_goals exact ⟨_, rfl, by simp⟩

/-- On status `200` the calls of `FetchAndVerify` go on with the creation of the archive file. -/
theorem module.FetchAndVerify_proceeds (f : module.Fetcher) (w : module.World)
    (path version expectedChecksum url : Str) (resp : module.Response)
    (h1 : w.MkdirAll (filepath.Join [f.cacheDir, path ++ "@".toList ++ version]) = none)
    (h2 : module.archiveURL path version = .ok url)
    (h3 : w.Get url = .ok resp) (h4 : resp.StatusCode = 200) :
    [module.Call.MkdirAll (filepath.Join [f.cacheDir, path ++ "@".toList ++ version]),
      module.Call.Get url,
      module.Call.Create (filepath.Join [filepath.Join [f.cacheDir, path ++ "@".toList ++ version],
        version ++ ".zip".toList])]
      <+: (f.FetchAndVerify w path version expectedChecksum false).1 := by
  unfold module.Fetcher.FetchAndVerify
  simp only [Bool.false_eq_true, if_false, h1, h2, h3, h4, ne_eq, not_true_eq_false]
  repeat' split
  all_goals simp [List.prefix_iff_eq_append]

/-- Claim C6. The URL block of `FetchAndVerify` is a function of `path` and
`version` alone. For `github.com/<owner>/<repo>` followed by nothing or by
further segments it gives
`https://github.com/<owner>/<repo>/archive/refs/tags/<version>.zip`; for
`github.com/<owner>` with no further separator it returns the invalid-path
error; for a path that does not start with `github.com/` it gives
`https://<path>/archive/<version>.zip`. Every `http.Get` that `FetchAndVerify`
makes is for that URL, and when the block returns the error no `http.Get` is
made and, the module directory being created, the call returns that error. -/
theorem archiveURL_derivation (version : Str) :
    (∀ owner repo more : Str, '/' ∉ owner → '/' ∉ repo →
        (more = [] ∨ more.head? = some '/') →
        module.archiveURL ("github.com/".toList ++ owner ++ "/".toList ++ repo ++ more) version
          = .ok ("https://github.com/".toList ++ owner ++ "/".toList ++ repo
              ++ "/archive/refs/tags/".toList ++ version ++ ".zip".toList)) ∧
      (∀ owner : Str, '/' ∉ owner →
        module.archiveURL ("github.com/".toList ++ owner) version
          = .error (.errorf ("invalid GitHub path: ".toList ++ ("github.com/".toList ++ owner)))) ∧
      (∀ path : Str, ¬ "github.com/".toList <+: path →
        module.archiveURL path version
          = .ok ("https://".toList ++ path ++ "/archive/".toList ++ version ++ ".zip".toList)) ∧
      (∀ (f : module.Fetcher) (w : module.World) (path expectedChecksum : Str),
        (∀ url, module.Call.Get url ∈ (f.FetchAndVerify w path version expectedChecksum false).1 →
          module.archiveURL path version = .ok url) ∧
        (∀ err, module.archiveURL path version = .error err →
          (∀ url, module.Call.Get url ∉ (f.FetchAndVerify w path version expectedChecksum false).1) ∧
          (w.MkdirAll (filepath.Join [f.cacheDir, path ++ "@".toList ++ version]) = none →
            (f.FetchAndVerify w path version expectedChecksum false).2 = some err))) := by
  have hgh : '/' ∉ "github.com".toList := by decide
  refine ⟨?_, ?_, ?_, ?_⟩
  · intro owner repo more ho hr hmore
    have hpre : strings.HasPrefix ("github.com/".toList ++ owner ++ "/".toList ++ repo ++ more)
        "github.com/".toList = true :=
      (strings.HasPrefix_iff _ _).mpr ⟨owner ++ "/".toList ++ repo ++ more, by simp⟩
    obtain ⟨tl, htl⟩ := List.splitOn_head repo more '/' hr hmore
    have hsplit : strings.Split ("github.com/".toList ++ owner ++ "/".toList ++ repo ++ more) '/'
        = "github.com".toList :: owner :: repo :: tl := by
      have e : "github.com/".toList ++ owner ++ "/".toList ++ repo ++ more
          = "github.com".toList ++ '/' :: (owner ++ '/' :: (repo ++ more)) := by simp
      rw [strings.Split, e, List.splitOn_first _ _ _ hgh, List.splitOn_first _ _ _ ho, htl]
    simp only [module.archiveURL, hpre, hsplit, if_true]
    simp
  · intro owner ho
    have hpre : strings.HasPrefix ("github.com/".toList ++ owner) "github.com/".toList = true :=
      (strings.HasPrefix_iff _ _).mpr ⟨owner, rfl⟩
    have hsplit : strings.Split ("github.com/".toList ++ owner) '/'
        = ["github.com".toList, owner] := by
      have e : "github.com/".toList ++ owner = "github.com".toList ++ '/' :: owner := by simp
      rw [strings.Split, e, List.splitOn_first _ _ _ hgh]
      have : owner.splitOn '/' = [owner] := by
        apply List.splitOnP_eq_single
        intro x hx
        simp only [beq_iff_eq]
        rintro rfl
        exact ho hx
      rw [this]
    simp only [module.archiveURL, hpre, hsplit, if_true]
    simp
  · intro path hp
    have hpre : ¬ strings.HasPrefix path "github.com/".toList = true :=
      fun hc => hp ((strings.HasPrefix_iff _ _).mp hc)
    rw [module.archiveURL, if_neg hpre]
  · intro f w path expectedChecksum
    have hcalls := module.FetchAndVerify_calls f w path version expectedChecksum
    refine ⟨?_, ?_⟩
    · intro url hurl
      rcases hcalls with h | ⟨u, rest, hu, hc, hrest⟩
      · rw [h] at hurl; simp at hurl
      · rw [hc] at hurl
        simp only [List.mem_cons, module.Call.Get.injEq] at hurl
        rcases hurl with h | h | h
        · exact absurd h (by simp)
        · rw [h]; exact hu
        · exact absurd h (hrest url)
    · intro err herr
      refine ⟨?_, ?_⟩
      · intro url hurl
        rcases hcalls with h | ⟨u, rest, hu, -, -⟩
        · rw [h] at hurl; simp at hurl
        · rw [herr] at hu; simp at hu
      · intro hmk
        simp only [module.Fetcher.FetchAndVerify, Bool.false_eq_true, if_false, hmk, herr]

theorem archiveURL_derivation_witness :
    module.archiveURL ("github.com/".toList ++ "knqyf263".toList ++ "/".toList ++ "go-mal-pkgs".toList
        ++ "/pkg/module".toList) "v0.1.0".toList
      = .ok ("https://github.com/".toList ++ "knqyf263".toList ++ "/".toList ++ "go-mal-pkgs".toList
          ++ "/archive/refs/tags/".toList ++ "v0.1.0".toList ++ ".zip".toList) :=
  (archiveURL_derivation "v0.1.0".toList).1 "knqyf263".toList "go-mal-pkgs".toList
    "/pkg/module".toList (by decide) (by decide) (Or.inr (by decide))

/-- Claim C8, as the code has it. Once the module directory is created and the
URL derived, a response is accepted exactly when its status is `200`: then
`FetchAndVerify` goes on to create the archive file; for every other status,
the other `2xx` statuses included, it makes no further call and returns the
error `failed to fetch module: HTTP <status>`. -/
theorem FetchAndVerify_status_handling (f : module.Fetcher) (w : module.World)
    (path version expectedChecksum url : Str) (resp : module.Response)
    (h1 : w.MkdirAll (filepath.Join [f.cacheDir, path ++ "@".toList ++ version]) = none)
    (h2 : module.archiveURL path version = .ok url)
    (h3 : w.Get url = .ok resp) :
    (resp.StatusCode = 200 →
        [module.Call.MkdirAll (filepath.Join [f.cacheDir, path ++ "@".toList ++ version]),
          module.Call.Get url,
          module.Call.Create (filepath.Join [filepath.Join [f.cacheDir,
            path ++ "@".toList ++ version], version ++ ".zip".toList])]
          <+: (f.FetchAndVerify w path version expectedChecksum false).1) ∧
      (resp.StatusCode ≠ 200 →
        f.FetchAndVerify w path version expectedChecksum false
          = ([module.Call.MkdirAll (filepath.Join [f.cacheDir, path ++ "@".toList ++ version]),
              module.Call.Get url],
            some (.errorf ("failed to fetch module: HTTP ".toList
              ++ module.formatInt resp.StatusCode)))) := by
  refine ⟨fun h4 => module.FetchAndVerify_proceeds f w path version expectedChecksum url resp
    h1 h2 h3 h4, fun h4 => ?_⟩
  simp only [module.Fetcher.FetchAndVerify, Bool.false_eq_true, if_false, h1, h2, h3, h4, ne_eq,
    not_false_eq_true, if_true, List.singleton_append]

theorem FetchAndVerify_status_handling_witness :
    Example.fetcher.FetchAndVerify (Example.world 404 "h1:AAAA".toList) "example.com/pkg".toList
        "v1.0.0".toList "h1:AAAA".toList false
      = ([module.Call.MkdirAll (filepath.Join [Example.fetcher.cacheDir,
            "example.com/pkg".toList ++ "@".toList ++ "v1.0.0".toList]),
          module.Call.Get "https://example.com/pkg/archive/v1.0.0.zip".toList],
        some (.errorf ("failed to fetch module: HTTP ".toList
          ++ module.formatInt (404 : Int)))) :=
  (FetchAndVerify_status_handling Example.fetcher (Example.world 404 "h1:AAAA".toList)
    "example.com/pkg".toList "v1.0.0".toList "h1:AAAA".toList
    "https://example.com/pkg/archive/v1.0.0.zip".toList
    { StatusCode := 404, Body := "PK".toList } rfl rfl rfl).2 (by decide)

/-- Claim C8 as stated fails: `204` is a `2xx` status, and on it `FetchAndVerify`
returns a fetch error without creating the archive file. -/
theorem FetchAndVerify_rejects_status_204 :
    (200 : Int) ≤ 204 ∧ (204 : Int) < 300 ∧
      Example.fetcher.FetchAndVerify (Example.world 204 "h1:AAAA".toList)
          "example.com/pkg".toList "v1.0.0".toList "h1:AAAA".toList false
        = ([module.Call.MkdirAll "/tmp/cache/example.com/pkg@v1.0.0".toList,
            module.Call.Get "https://example.com/pkg/archive/v1.0.0.zip".toList],
          some (.errorf "failed to fetch module: HTTP 204".toList)) :=
  ⟨by decide, by decide, by rfl⟩

/-- Every call of `extractZip` that `FetchAndVerify` makes has the destination `extract` under the module directory. -/
theorem module.FetchAndVerify_extract_destination (f : module.Fetcher) (w : module.World)
    (path version expectedChecksum : Str) (isGoMod : Bool) (zipPath destDir : Str)
    (calls : List module.FsCall)
    (h : module.Call.extractZip zipPath destDir calls
      ∈ (f.FetchAndVerify w path version expectedChecksum isGoMod).1) :
    destDir = filepath.Join [filepath.Join [f.cacheDir, path ++ "@".toList ++ version],
      "extract".toList] := by
  revert h
  unfold module.Fetcher.FetchAndVerify
  simp only [List.singleton_append, List.cons_append, List.nil_append]
  repeat' split
  all_goals simp
  all_goals
    intro _ hd _
    exact hd

/-- Claim C1. `extractZip` is called by `FetchAndVerify` alone, and every
destination it is called with is `filepath.Join(moduleDir, "extract")` for the
module directory of the record. For every such destination, an entry that
passes the check of `extractZip` has its joined path strictly inside the
destination (the path is the cleaned destination, a separator and plain
segments, none of them empty, `.` or `..`), and the entry `../../etc/passwd`
fails the check: `extractZip` returns an error with the file system calls of
the entries before it and none for the entry or for a later one. For every
destination, an entry that fails the check ends the extraction in that way,
and the containment holds for every destination whose cleaned form does not
end in a `..` segment. -/
theorem extractZip_path_containment :
    (∀ (f : module.Fetcher) (w : module.World) (path version expectedChecksum : Str)
        (isGoMod : Bool) (zipPath destDir : Str) (calls : List module.FsCall),
        module.Call.extractZip zipPath destDir calls
          ∈ (f.FetchAndVerify w path version expectedChecksum isGoMod).1 →
        destDir = filepath.Join [filepath.Join [f.cacheDir, path ++ "@".toList ++ version],
          "extract".toList]) ∧
      (∀ moduleDir : Str,
        (∀ name : Str,
          module.pathAllowed (filepath.Join [moduleDir, "extract".toList]) name = true →
          Spec.inside (filepath.Join [moduleDir, "extract".toList])
            (filepath.Join [filepath.Join [moduleDir, "extract".toList], name]) = true) ∧
        module.pathAllowed (filepath.Join [moduleDir, "extract".toList])
          "../../etc/passwd".toList = false ∧
        (∀ (zipPath : Str) (before rest : List module.ZipFile) (f : module.ZipFile),
          f.Name = "../../etc/passwd".toList →
          (module.extractZip (fun _ => .ok (before ++ f :: rest)) zipPath
            (filepath.Join [moduleDir, "extract".toList])).2 ≠ none ∧
          (module.extractZip (fun _ => .ok (before ++ f :: rest)) zipPath
            (filepath.Join [moduleDir, "extract".toList])).1
            = (module.extractZip (fun _ => .ok before) zipPath
                (filepath.Join [moduleDir, "extract".toList])).1)) ∧
      (∀ (destDir zipPath : Str) (before rest : List module.ZipFile) (f : module.ZipFile),
        module.pathAllowed destDir f.Name = false →
        (module.extractZip (fun _ => .ok (before ++ f :: rest)) zipPath destDir).2 ≠ none ∧
        (module.extractZip (fun _ => .ok (before ++ f :: rest)) zipPath destDir).1
          = (module.extractZip (fun _ => .ok before) zipPath destDir).1) ∧
      (∀ destDir : Str,
        ((filepath.Clean destDir).splitOn filepath.Separator).getLast? ≠ some ['.', '.'] →
        (∀ name : Str, module.pathAllowed destDir name = true →
          Spec.inside destDir (filepath.Join [destDir, name]) = true) ∧
        (filepath.Clean destDir ≠ "/etc".toList →
          module.pathAllowed destDir "../../etc/passwd".toList = false)) := by
  have hreject : ∀ (destDir zipPath : Str) (before rest : List module.ZipFile)
      (f : module.ZipFile), module.pathAllowed destDir f.Name = false →
      (module.extractZip (fun _ => .ok (before ++ f :: rest)) zipPath destDir).2 ≠ none ∧
      (module.extractZip (fun _ => .ok (before ++ f :: rest)) zipPath destDir).1
        = (module.extractZip (fun _ => .ok before) zipPath destDir).1 := by
    intro destDir zipPath before rest f hf
    simp only [module.extractZip_ok]
    exact module.extractFiles_reject destDir before rest f hf
  refine ⟨fun f w path version expectedChecksum isGoMod zipPath destDir calls h =>
      module.FetchAndVerify_extract_destination f w path version expectedChecksum isGoMod
        zipPath destDir calls h,
    fun moduleDir => ?_, hreject,
    fun destDir hdest => ⟨fun name hpass => module.pathAllowed_inside destDir name hdest hpass,
      fun hetc => module.pathAllowed_etc_passwd destDir hdest hetc⟩⟩
  have hlast := filepath.Join_extract_last moduleDir
  have hdest : ((filepath.Clean (filepath.Join [moduleDir, "extract".toList])).splitOn
      filepath.Separator).getLast? ≠ some ['.', '.'] := by
    rw [hlast]; decide
  have hetc : filepath.Clean (filepath.Join [moduleDir, "extract".toList]) ≠ "/etc".toList := by
    intro hc
    rw [hc] at hlast
    revert hlast
    decide
  have hfail := module.pathAllowed_etc_passwd _ hdest hetc
  refine ⟨fun name hpass => module.pathAllowed_inside _ name hdest hpass, hfail, ?_⟩
  intro zipPath before rest f hname
  exact hreject _ zipPath before rest f (by rw [hname]; exact hfail)

theorem extractZip_path_containment_witness :
    Spec.inside (filepath.Join ["/tmp/cache/example.com/pkg@v1.0.0".toList, "extract".toList])
        (filepath.Join [filepath.Join ["/tmp/cache/example.com/pkg@v1.0.0".toList,
          "extract".toList], "pkg-1.0.0/a.go".toList]) = true ∧
      (module.extractZip (fun _ => .ok ([Example.file "pkg-1.0.0/a.go".toList]
          ++ Example.file "../../etc/passwd".toList :: [Example.file "pkg-1.0.0/b.go".toList]))
          "a.zip".toList
          (filepath.Join ["/tmp/cache/example.com/pkg@v1.0.0".toList, "extract".toList])).2
        ≠ none :=
  ⟨(extractZip_path_containment.2.1 "/tmp/cache/example.com/pkg@v1.0.0".toList).1
      "pkg-1.0.0/a.go".toList (by decide),
    ((extractZip_path_containment.2.1 "/tmp/cache/example.com/pkg@v1.0.0".toList).2.2
      "a.zip".toList [Example.file "pkg-1.0.0/a.go".toList]
      [Example.file "pkg-1.0.0/b.go".toList] (Example.file "../../etc/passwd".toList) rfl).1⟩

/-! ### The record loop -/

theorem Spec.invocations_append (xs ys : List main.Event) :
    Spec.invocations (xs ++ ys) = Spec.invocations xs ++ Spec.invocations ys := by
  induction xs with
  | nil => rfl
  | cons x xs ih => cases x <;> simp [Spec.invocations, ih]

/-- The record loop calls `FetchAndVerify` for the records with `IsGoMod = false`, in order. -/
theorem main.invocations_checkModules (fetcher : module.Fetcher) (world : Nat → module.World)
    (i : Nat) (mods : List sumdb.Module) :
    Spec.invocations (main.checkModules fetcher world i mods)
      = (mods.filter (fun m => !m.IsGoMod)).map
          (fun m => (m.Path, m.Version, m.Checksum, false)) := by
  induction mods generalizing i with
  | nil => rfl
  | cons m ms ih =>
    cases hm : m.IsGoMod with
    | true => simp [main.checkModules, hm, ih]
    | false =>
      simp only [main.checkModules, hm, Bool.false_eq_true, if_false]
      cases (fetcher.FetchAndVerify (world i) m.Path m.Version m.Checksum false).2 <;>
        simp [Spec.invocations, hm, ih]

/-- Claim C5. When the manifest is parsed into `mods` and the temporary directory
and the fetcher are created, `run` returns `nil` and calls `FetchAndVerify`
exactly once for each record with `IsGoMod = false`, in the order of `mods`,
with that record's path, version and checksum, and for no record with
`IsGoMod = true`, whatever the worlds are that the calls find and so whatever
any of them returns. -/
theorem run_record_isolation (s : main.Setup) (projectDir tempDir : Str)
    (mods : List sumdb.Module)
    (hparse : sumdb.Parse s.osOpen (filepath.Join [projectDir, "go.sum".toList]) = .ok mods)
    (htemp : s.MkdirTemp = .ok tempDir) (hcache : s.MkdirAll tempDir = none) :
    (main.run s projectDir).2 = none ∧
      Spec.invocations (main.run s projectDir).1
        = (mods.filter (fun m => !m.IsGoMod)).map
            (fun m => (m.Path, m.Version, m.Checksum, false)) := by
  simp only [main.run, hparse, htemp, module.NewFetcher, hcache, Spec.invocations_append,
    main.invocations_checkModules]
  simp [Spec.invocations]

theorem run_record_isolation_witness :
    (main.run (Example.setup "a v1 h1:AAAA\na v1/go.mod h1:x\nb v2 h1:BBBB\nc v3 h1:AAAA\n".toList
        (fun i => Example.world (if i = 2 then 404 else 200) "h1:AAAA".toList)) "proj".toList).2 = none ∧
      Spec.invocations (main.run (Example.setup
          "a v1 h1:AAAA\na v1/go.mod h1:x\nb v2 h1:BBBB\nc v3 h1:AAAA\n".toList
          (fun i => Example.world (if i = 2 then 404 else 200) "h1:AAAA".toList)) "proj".toList).1
        = (List.filter (fun m : sumdb.Module => !m.IsGoMod)
            [⟨"a".toList, "v1".toList, "h1:AAAA".toList, false⟩,
              ⟨"a".toList, "v1".toList, "h1:x".toList, true⟩,
              ⟨"b".toList, "v2".toList, "h1:BBBB".toList, false⟩,
              ⟨"c".toList, "v3".toList, "h1:AAAA".toList, false⟩]).map
            (fun m => (m.Path, m.Version, m.Checksum, false)) :=
  run_record_isolation
    (Example.setup "a v1 h1:AAAA\na v1/go.mod h1:x\nb v2 h1:BBBB\nc v3 h1:AAAA\n".toList
      (fun i => Example.world (if i = 2 then 404 else 200) "h1:AAAA".toList))
    "proj".toList "/tmp/go-mal-pkgs-1".toList
    [⟨"a".toList, "v1".toList, "h1:AAAA".toList, false⟩,
      ⟨"a".toList, "v1".toList, "h1:x".toList, true⟩,
      ⟨"b".toList, "v2".toList, "h1:BBBB".toList, false⟩,
      ⟨"c".toList, "v3".toList, "h1:AAAA".toList, false⟩] rfl rfl rfl

/-! ### The content hash -/

/-- Claim C9. The digest of a tree is the same for every order in which its
files are enumerated: two enumerations that are permutations of each other
give the same digest, for every hash function and every prefix. -/
theorem treeDigest_order_independent (contentHashHex finalHashBase64 : Str → Str) (pfx : Str)
    (files files' : List (Str × Str)) (h : files.Perm files') :
    Spec.treeDigest contentHashHex finalHashBase64 pfx files
      = Spec.treeDigest contentHashHex finalHashBase64 pfx files' := by
  unfold Spec.treeDigest
  simp only
  have hperm := h.map (fun file : Str × Str =>
    contentHashHex file.2 ++ "  ".toList ++ pfx ++ "/".toList ++ file.1 ++ "\n".toList)
  have hsorted : List.insertionSort (· ≤ ·) (files.map fun file : Str × Str =>
        contentHashHex file.2 ++ "  ".toList ++ pfx ++ "/".toList ++ file.1 ++ "\n".toList)
      = List.insertionSort (· ≤ ·) (files'.map fun file : Str × Str =>
        contentHashHex file.2 ++ "  ".toList ++ pfx ++ "/".toList ++ file.1 ++ "\n".toList) :=
    List.eq_of_perm_of_sorted
      (((List.perm_insertionSort _ _).trans hperm).trans (List.perm_insertionSort _ _).symm)
      (List.sorted_insertionSort _ _) (List.sorted_insertionSort _ _)
  rw [hsorted]

theorem treeDigest_order_independent_witness :
    Spec.treeDigest (fun b => b.reverse) (fun b => b) "m@v1".toList
        [("b.go".toList, "bb".toList), ("a.go".toList, "aa".toList)]
      = Spec.treeDigest (fun b => b.reverse) (fun b => b) "m@v1".toList
        [("a.go".toList, "aa".toList), ("b.go".toList, "bb".toList)] :=
  treeDigest_order_independent _ _ _ _ _ (List.Perm.swap _ _ _)
